import Mathlib

/-!
Verification development for the `compops` backend
(`src/backend/universal_upgrade.py` and `src/backend/smart_sbom_graph.py`).

The Python code is shallowly embedded: pure fragments become Lean
functions, the SQLite / HTTP / file-system boundaries become explicit
parameters or event traces, and Python exceptions become `Except` /
`Option` values.  Machine integers do not occur (Python integers are
unbounded), so `Nat`/`Int` are used directly.
-/

namespace CompOps

/-! ## Semantic versions, as implemented by the `semver` PyPI package

`universal_upgrade.py` relies on `semver.compare` and
`semver.Version.parse`.  `Version.parse` accepts exactly the strings
matching the anchored regex

  (0|[1-9]\d*) "." (0|[1-9]\d*) "." (0|[1-9]\d*)
  ("-" prerelease)? ("+" build)?

where `prerelease` is a dot-separated list of identifiers, each
`0|[1-9]\d*|\d*[a-zA-Z-][0-9a-zA-Z-]*`, and `build` is a dot-separated
list of nonempty `[0-9a-zA-Z-]+` identifiers; it raises
`ValueError(version + " is not valid SemVer string")` otherwise.
Digits are modelled as ASCII digits.
-/

/-- Model of Python `str.split(sep)` for a one-character separator,
working on the character list. Keeps empty pieces, like Python. -/
def splitOnChar (sep : Char) : List Char → List (List Char)
  | [] => [[]]
  | c :: rest =>
    let r := splitOnChar sep rest
    if c = sep then [] :: r
    else
      match r with
      | [] => [[c]]
      | p :: ps => (c :: p) :: ps

/-- Split at the first occurrence of `sep`: returns the part before it and,
if `sep` occurs, the part after it. -/
def splitFirst (sep : Char) : List Char → List Char × Option (List Char)
  | [] => ([], none)
  | c :: rest =>
    if c = sep then ([], some rest)
    else
      let (a, b) := splitFirst sep rest
      (c :: a, b)

/-- One step of decimal accumulation. -/
def dstep (acc : Nat) (c : Char) : Nat := acc * 10 + (c.toNat - 48)

/-- Numeric value of a list of ASCII digit characters (Python `int(...)`). -/
def digitsVal (l : List Char) : Nat := l.foldl dstep 0

/-- The regex alternative `0|[1-9]\d*`: a nonempty digit string with no
leading zero except the single digit `0`. -/
def isCanonNum (l : List Char) : Bool :=
  match l with
  | [] => false
  | [c] => c.isDigit
  | c :: cs => c.isDigit && !(c = '0') && cs.all Char.isDigit

/-- Characters allowed in prerelease / build identifiers: `[0-9a-zA-Z-]`. -/
def isAlnumHyph (c : Char) : Bool :=
  c.isDigit || c.isAlpha || c = '-'

/-- A valid prerelease identifier: `0|[1-9]\d*|\d*[a-zA-Z-][0-9a-zA-Z-]*`,
i.e. nonempty, alphanumeric/hyphen, and canonical when purely numeric. -/
def validPreId (l : List Char) : Bool :=
  !l.isEmpty && l.all isAlnumHyph && (!(l.all Char.isDigit) || isCanonNum l)

/-- A valid build identifier: nonempty `[0-9a-zA-Z-]+`. -/
def validBuildId (l : List Char) : Bool :=
  !l.isEmpty && l.all isAlnumHyph

/-- The result of `semver.Version.parse`: the parsed triple plus the raw
prerelease and build strings (the Python object stores them as strings). -/
structure PyVersion where
  major : Nat
  minor : Nat
  patch : Nat
  prerelease : Option String
  build : Option String
deriving DecidableEq, Repr

/-- Parse `major.minor.patch(-prerelease)?` (the part before any `+`). -/
def parseMainChars (main : List Char) (build : Option String) : Option PyVersion :=
  let cp := splitFirst '-' main
  match splitOnChar '.' cp.1 with
  | [ma, mi, pa] =>
    if isCanonNum ma && isCanonNum mi && isCanonNum pa then
      match cp.2 with
      | none => some ⟨digitsVal ma, digitsVal mi, digitsVal pa, none, build⟩
      | some pch =>
        if (splitOnChar '.' pch).all validPreId then
          some ⟨digitsVal ma, digitsVal mi, digitsVal pa, some (String.mk pch), build⟩
        else none
    else none
  | _ => none

/-- Model of `semver.Version.parse`: `none` models the raised `ValueError`. -/
def parseVersion (s : String) : Option PyVersion :=
  match splitOnChar '+' s.data with
  | [main] => parseMainChars main none
  | [main, build] =>
    if (splitOnChar '.' build).all validBuildId then
      parseMainChars main (some (String.mk build))
    else none
  | _ => none

/-! ### Comparison (`semver.Version.compare` / `semver._nat_cmp`) -/

/-- Three-way comparison of naturals, Python `cmp` style. -/
def intCmpN (a b : Nat) : Int :=
  if a < b then -1 else if b < a then 1 else 0

/-- Three-way comparison of characters (Python compares by code point). -/
def charCmp (a b : Char) : Int :=
  intCmpN a.toNat b.toNat

/-- Three-way comparison of strings as Python compares `str` values. -/
def strCmpL : List Char → List Char → Int
  | [], [] => 0
  | [], _ :: _ => -1
  | _ :: _, [] => 1
  | a :: as_, b :: bs =>
    if charCmp a b = 0 then strCmpL as_ bs else charCmp a b

/-- `_nat_cmp` turns each dot-separated part into an `int` when it is all
digits (regex `^\d+$`), otherwise leaves it a string. -/
def toTag (l : List Char) : Nat ⊕ List Char :=
  if !l.isEmpty && l.all Char.isDigit then Sum.inl (digitsVal l) else Sum.inr l

/-- `cmp_prerelease_tag`: ints compare numerically, an int is below any
string, strings compare as Python strings. -/
def tagCmp : Nat ⊕ List Char → Nat ⊕ List Char → Int
  | Sum.inl a, Sum.inl b => intCmpN a b
  | Sum.inl _, Sum.inr _ => -1
  | Sum.inr _, Sum.inl _ => 1
  | Sum.inr a, Sum.inr b => strCmpL a b

/-- First nonzero tag comparison over `zip(a_parts, b_parts)` (the loop in
`_nat_cmp`); `0` when the zipped region is exhausted. -/
def zipCmp : List (Nat ⊕ List Char) → List (Nat ⊕ List Char) → Int
  | a :: as_, b :: bs =>
    if tagCmp a b = 0 then zipCmp as_ bs else tagCmp a b
  | _, _ => 0

/-- `semver._nat_cmp a b`: compare dot-separated parts pairwise, then break
the tie with `cmp(len(a), len(b))` on the whole strings. -/
def natCmpStr (a b : String) : Int :=
  let ap := (splitOnChar '.' a.data).map toTag
  let bp := (splitOnChar '.' b.data).map toTag
  let c := zipCmp ap bp
  if c = 0 then intCmpN a.length b.length else c

/-- Prerelease comparison step of `Version.compare`: equal when both absent,
a version without prerelease is greater, otherwise `_nat_cmp`. -/
def preCmp : Option String → Option String → Int
  | none, none => 0
  | none, some _ => 1
  | some _, none => -1
  | some x, some y => natCmpStr x y

/-- `if c == 0 then next else c` — the cascade in tuple comparison. -/
def thenCmp (c1 c2 : Int) : Int :=
  if c1 = 0 then c2 else c1

/-- `semver.Version.compare`: lexicographic on `(major, minor, patch)`,
then the prerelease rule. Build metadata is ignored. -/
def versionCompare (a b : PyVersion) : Int :=
  thenCmp (intCmpN a.major b.major)
    (thenCmp (intCmpN a.minor b.minor)
      (thenCmp (intCmpN a.patch b.patch)
        (preCmp a.prerelease b.prerelease)))

/-- `semver.compare(ver1, ver2)`: parses `ver1` first, then `ver2`;
`.error` carries `str(e)` of the `ValueError` raised for an invalid string. -/
def semverCompareExc (a b : String) : Except String Int :=
  match parseVersion a with
  | none => Except.error (a ++ " is not valid SemVer string")
  | some va =>
    match parseVersion b with
    | none => Except.error (b ++ " is not valid SemVer string")
    | some vb => Except.ok (versionCompare va vb)

/-- Total comparison on strings, used as the sort key order
(`sorted(..., key=semver.Version.parse)`). It is only ever applied to
strings that already parsed; the catch-all is unreachable there. -/
def versionCompareStr (a b : String) : Int :=
  match parseVersion a, parseVersion b with
  | some x, some y => versionCompare x y
  | _, _ => 0

/-! ## The upgrade engine (`universal_upgrade.py`)

`check_upgrade_feasibility(vuln_id)` first fetches
`(component_name, version, fixed_version)` from SQLite; that database
row is modelled as the explicit `VulnRow` argument (the
vulnerability-not-found early return is outside the model).
`_find_latest_safe_version` queries a package registry over HTTP for
the list of available version strings; that list is modelled as the
explicit `availableVersions` argument (a single abstract version
source; the PyPI and npm fallback blocks behave identically on it).
-/

/-- The columns `component_name, version, fixed_version` of the
`vulnerabilities` row (the `VulnerabilityRecord` of the spec). -/
structure VulnRow where
  component : String
  currentVersion : String
  fixedVersion : Option String
deriving DecidableEq, Repr

/-- The dict returned by `check_upgrade_feasibility`; keys absent from a
given return statement are `none`.  The float confidences 0.9 / 0.7 are
modelled as the exact rationals 9/10 and 7/10. -/
structure FeasibilityResult where
  feasible : Bool
  component : Option String := none
  from_version : Option String := none
  to_version : Option String := none
  confidence : Option ℚ := none
  reason : Option String := none
deriving DecidableEq, Repr

/-- The comprehension
`[v for v in versions if semver.compare(v, current_version) > 0]`:
evaluating `semver.compare` on an unparsable string raises, which
discards the whole comprehension (`none`); the surrounding bare
`except: pass` then yields no candidates from this source. -/
def filterNewerExc (current : String) : List String → Option (List String)
  | [] => some []
  | v :: rest =>
    match semverCompareExc v current with
    | Except.error _ => none
    | Except.ok c =>
      match filterNewerExc current rest with
      | none => none
      | some l => some (if 0 < c then v :: l else l)

/-- `sorted(newer_versions, key=semver.Version.parse)` — Python's stable
sort keyed by the parsed version; insertion sort with the non-strict key
order is exactly that stable sort. -/
def pySortedByVersion (l : List String) : List String :=
  List.insertionSort (fun a b => versionCompareStr a b ≤ 0) l

/-- `_find_latest_safe_version(component, current_version)` given the
version strings the registry returned: filter the strictly newer ones
(aborted wholesale by an unparsable string), and return `sorted(...)[-1]`
of the survivors, or `None`. -/
def find_latest_safe_version (availableVersions : List String)
    (current_version : String) : Option String :=
  match filterNewerExc current_version availableVersions with
  | none => none
  | some newer =>
    if newer.isEmpty then none
    else (pySortedByVersion newer).getLast?

/-- `check_upgrade_feasibility` after the database fetch.  The `try`
around the body catches any exception (in particular the `ValueError`
from `semver.compare`) and returns `{'feasible': False, 'reason': str(e)}`. -/
def check_upgrade_feasibility (row : VulnRow) (availableVersions : List String) :
    FeasibilityResult :=
  match row.fixedVersion with
  | some fixed =>
    match semverCompareExc fixed row.currentVersion with
    | Except.error e => { feasible := false, reason := some e }
    | Except.ok c =>
      if 0 < c then
        { feasible := true, component := some row.component,
          from_version := some row.currentVersion,
          to_version := some fixed, confidence := some (9/10) }
      else
        { feasible := false, reason := some "Fixed version is not newer" }
  | none =>
    match find_latest_safe_version availableVersions row.currentVersion with
    | some latest =>
      { feasible := true, component := some row.component,
        from_version := some row.currentVersion,
        to_version := some latest, confidence := some (7/10) }
    | none => { feasible := false, reason := some "No safe upgrade path found" }

/-! ### Specification-side comparator and validity predicates
(used by the theorems; `lexCmpT` is ordinary lexicographic comparison of
tag lists, which `_nat_cmp` is proved to coincide with on valid
prerelease strings). -/

/-- Lexicographic three-way comparison of tag lists (a proper prefix is
smaller). -/
def lexCmpT : List (Nat ⊕ List Char) → List (Nat ⊕ List Char) → Int
  | [], [] => 0
  | [], _ :: _ => -1
  | _ :: _, [] => 1
  | a :: as_, b :: bs =>
    if tagCmp a b = 0 then lexCmpT as_ bs else tagCmp a b

/-- Total length of the string a part list was split from:
sum of part lengths plus the separators between them. -/
def partsLen (l : List (List Char)) : Nat :=
  (l.map List.length).sum + (l.length - 1)

/-- Rejoin dot-separated parts. -/
def joinDots : List (List Char) → List Char
  | [] => []
  | [x] => x
  | x :: xs => x ++ '.' :: joinDots xs

/-- All dot-separated parts of the string are valid prerelease identifiers
(every prerelease stored by `parseVersion` satisfies this). -/
def ValidPreS (s : String) : Prop :=
  ∀ p ∈ splitOnChar '.' s.data, validPreId p = true

/-- The version's prerelease, if any, is a valid prerelease string. -/
def ValidV (v : PyVersion) : Prop :=
  ∀ s, v.prerelease = some s → ValidPreS s

/-- Lexicographic comparison of optional prerelease tag lists (absent
prerelease is greatest). -/
def preKeyCmp : Option (List (Nat ⊕ List Char)) → Option (List (Nat ⊕ List Char)) → Int
  | none, none => 0
  | none, some _ => 1
  | some _, none => -1
  | some x, some y => lexCmpT x y

/-- The sort key of a version: numeric triple plus parsed prerelease tags. -/
def vKey (v : PyVersion) : Nat × Nat × Nat × Option (List (Nat ⊕ List Char)) :=
  (v.major, v.minor, v.patch, v.prerelease.map (fun s => (splitOnChar '.' s.data).map toTag))

/-- Plain lexicographic comparison of sort keys; `versionCompare` is proved
to coincide with it on parsed versions. -/
def vKeyCmp (k1 k2 : Nat × Nat × Nat × Option (List (Nat ⊕ List Char))) : Int :=
  thenCmp (intCmpN k1.1 k2.1)
    (thenCmp (intCmpN k1.2.1 k2.2.1)
      (thenCmp (intCmpN k1.2.2.1 k2.2.2.1)
        (preKeyCmp k1.2.2.2 k2.2.2.2)))

/-! ## The graph store (`smart_sbom_graph.py`)

The `networkx.DiGraph` is modelled as an insertion-ordered association
list of nodes (id to attribute record) and edges (source, target,
`relationship` attribute) — Python dicts preserve insertion order.
`add_node` on an existing id merges the supplied attribute dict into the
existing one; `generate_sbom` always supplies the complete attribute set
for the node kind, so the merge is modelled as replacement.  `add_edge`
creates missing endpoint nodes with an empty attribute dict, and replaces
the attribute dict of an existing edge. -/

/-- Attribute dict of a node; every key the code ever sets, absent keys
are `none`. (`typ` is the `'type'` key, `vid` the `'id'` key.) -/
structure NodeAttrs where
  typ : Option String := none
  url : Option String := none
  timestamp : Option String := none
  name : Option String := none
  version : Option String := none
  vulns : Option (List String) := none
  vid : Option String := none
  severity : Option String := none
deriving DecidableEq, Repr

/-- The directed graph: insertion-ordered node and edge association lists. -/
structure Graph where
  nodes : List (String × NodeAttrs)
  edges : List (String × String × String)
deriving DecidableEq, Repr

def emptyGraph : Graph := ⟨[], []⟩

/-- Association-list lookup (first binding of the key). -/
def lookupA {β : Type} : List (String × β) → String → Option β
  | [], _ => none
  | (j, b) :: rest, i => if j = i then some b else lookupA rest i

/-- Association-list upsert: replace the binding in place, else append. -/
def setA {β : Type} : List (String × β) → String → β → List (String × β)
  | [], i, b => [(i, b)]
  | (j, c) :: rest, i, b => if j = i then (i, b) :: rest else (j, c) :: setA rest i b

/-- Lookup of a directed edge's `relationship` attribute. -/
def lookupE : List (String × String × String) → String → String → Option String
  | [], _, _ => none
  | (x, y, s) :: rest, u, v => if x = u ∧ y = v then some s else lookupE rest u v

/-- Upsert of a directed edge (replace in place, else append). -/
def setE : List (String × String × String) → String → String → String → List (String × String × String)
  | [], u, v, r => [(u, v, r)]
  | (x, y, s) :: rest, u, v, r =>
    if x = u ∧ y = v then (u, v, r) :: rest else (x, y, s) :: setE rest u v r

def hasNodeB (g : Graph) (i : String) : Bool := (lookupA g.nodes i).isSome

/-- `graph.add_node(i, **attrs)`. -/
def addNode (g : Graph) (i : String) (a : NodeAttrs) : Graph :=
  { g with nodes := setA g.nodes i a }

/-- networkx creates absent endpoints of an added edge, with empty attrs. -/
def ensureNode (g : Graph) (i : String) : Graph :=
  if hasNodeB g i then g else { g with nodes := g.nodes ++ [(i, {})] }

/-- `graph.add_edge(u, v, relationship=r)`. -/
def addEdge (g : Graph) (u v r : String) : Graph :=
  let g1 := ensureNode (ensureNode g u) v
  { g1 with edges := setE g1.edges u v r }

/-- One entry of the hard-coded demo component list in `generate_sbom`. -/
structure DemoComponent where
  name : String
  version : String
  ctype : String
  vulnerabilities : List String
deriving DecidableEq, Repr

/-- The sample components `generate_sbom` ingests for every project
(its `components` local; the supplied `repo_url` does not vary them). -/
def demoComponents : List DemoComponent :=
  [⟨"requests", "2.28.1", "library", ["CVE-2023-1234"]⟩,
   ⟨"flask", "2.3.0", "framework", []⟩,
   ⟨"sqlalchemy", "1.4.47", "library", ["CVE-2023-5678"]⟩,
   ⟨"jinja2", "3.1.2", "template", []⟩,
   ⟨"werkzeug", "2.3.0", "library", ["CVE-2023-9012"]⟩]

/-- `'HIGH' if vuln_id == 'CVE-2023-1234' else 'MEDIUM'`. -/
def severityFor (vid : String) : String :=
  if vid = "CVE-2023-1234" then "HIGH" else "MEDIUM"

def projectNodeId (project_id : Int) : String := "project_" ++ toString project_id

def compNodeId (c : DemoComponent) : String := c.name ++ "_" ++ c.version

def vulnNodeId (vid : String) : String := "vuln_" ++ vid

def projAttrs (repo_url : String) : NodeAttrs :=
  { typ := some "project", url := some repo_url, timestamp := some "2024-01-01" }

def compAttrs (c : DemoComponent) : NodeAttrs :=
  { typ := some "component", name := some c.name, version := some c.version,
    vulns := some c.vulnerabilities }

def vulnAttrs (vid : String) : NodeAttrs :=
  { typ := some "vulnerability", vid := some vid, severity := some (severityFor vid) }

/-- The per-vulnerability body of `generate_sbom`'s inner loop:
create the vulnerability node if absent, then add the `AFFECTED_BY` edge. -/
def addVulnerability (g : Graph) (nid : String) (vid : String) : Graph :=
  let g1 := if hasNodeB g (vulnNodeId vid) then g else addNode g (vulnNodeId vid) (vulnAttrs vid)
  addEdge g1 nid (vulnNodeId vid) "AFFECTED_BY"

/-- The per-component body of `generate_sbom`'s loop: component node,
`DEPENDS_ON` edge, then the vulnerability loop. -/
def addComponent (g : Graph) (project_id : Int) (c : DemoComponent) : Graph :=
  let g1 := addNode g (compNodeId c) (compAttrs c)
  let g2 := addEdge g1 (projectNodeId project_id) (compNodeId c) "DEPENDS_ON"
  c.vulnerabilities.foldl (fun h vid => addVulnerability h (compNodeId c) vid) g2

/-- The graph mutation performed by `generate_sbom(project_id, repo_url)`.
(The trailing `_save_graph()` call, the SQLite insert and the returned
status dict do not touch the in-memory graph.) -/
def generate_sbom (g : Graph) (project_id : Int) (repo_url : String) : Graph :=
  let g1 := addNode g (projectNodeId project_id) (projAttrs repo_url)
  demoComponents.foldl (fun h c => addComponent h project_id c) g1

/-- Graph states reachable through the code's only mutator: the empty
graph (a fresh `nx.DiGraph()`), or any number of `generate_sbom` calls
(a loaded snapshot was itself written by such a history). -/
inductive Built : Graph → Prop
  | empty : Built emptyGraph
  | step (g : Graph) (project_id : Int) (repo_url : String) :
      Built g → Built (generate_sbom g project_id repo_url)

/-! ### Read-only queries -/

/-- Python exceptions relevant to the queries. -/
inductive PyExc
  | nodeNotFound
  | noPath
  | networkXError
  | keyError
deriving DecidableEq, Repr

/-- `graph.successors(n)` in adjacency (edge-insertion) order. -/
def successors (g : Graph) (n : String) : List String :=
  (g.edges.filter (fun e => e.1 == n)).map (fun e => e.2.1)

/-- `graph.predecessors(n)` in edge-insertion order. -/
def predecessors (g : Graph) (n : String) : List String :=
  (g.edges.filter (fun e => e.2.1 == n)).map (fun e => e.1)

/-- One BFS expansion of a single (reversed) path. -/
def expandPath (g : Graph) (visited : List String) : List String → List (List String)
  | [] => []
  | u :: rest => (successors g u).filterMap
      (fun v => if v ∈ visited then none else some (v :: u :: rest))

/-- One BFS expansion of a whole frontier of (reversed) paths. -/
def expandAll (g : Graph) (visited : List String) : List (List String) → List (List String)
  | [] => []
  | p :: ps => expandPath g visited p ++ expandAll g visited ps

/-- Level-by-level BFS producing a shortest path (reversed paths in the
frontier); models the search inside `nx.shortest_path`. -/
def bfsLoop (g : Graph) (t : String) : Nat → List String → List (List String) → Option (List String)
  | 0, _, _ => none
  | Nat.succ fuel, visited, frontier =>
    match frontier.find? (fun p => p.head? == some t) with
    | some p => some p.reverse
    | none =>
      let next := expandAll g visited frontier
      if next.isEmpty then none
      else bfsLoop g t fuel (visited ++ next.filterMap List.head?) next

/-- `nx.shortest_path(G, s, t)`: `NodeNotFound` if either endpoint is not
in the graph, `NetworkXNoPath` (here `.noPath`) if the target is
unreachable, otherwise a minimum-edge-count path.  networkx uses
bidirectional BFS with adjacency-order tie-breaking; on the graphs this
code builds the shortest path is unique, so plain BFS coincides. -/
def shortest_path (g : Graph) (s t : String) : Except PyExc (List String) :=
  if hasNodeB g s && hasNodeB g t then
    match bfsLoop g t (g.nodes.length + 1) [s] [[s]] with
    | some p => Except.ok p
    | none => Except.error PyExc.noPath
  else Except.error PyExc.nodeNotFound

/-- `nx.has_path`: calls `shortest_path`, turns `NetworkXNoPath` into
`False`, and lets `NodeNotFound` propagate. -/
def has_path (g : Graph) (s t : String) : Except PyExc Bool :=
  match shortest_path g s t with
  | Except.ok _ => Except.ok true
  | Except.error PyExc.noPath => Except.ok false
  | Except.error e => Except.error e

/-- One entry of the `query_reachable_vulnerabilities` result list. -/
structure VulnEntry where
  vulnerability : Option String
  component : Option String
  version : Option String
  path : List String
deriving DecidableEq, Repr

/-- `graph.nodes[n]` (edge endpoints are always present as nodes, so the
empty default is unreachable on graphs built through `addEdge`). -/
def attrsOf (g : Graph) (n : String) : NodeAttrs :=
  (lookupA g.nodes n).getD {}

/-- The inner `for comp in affected_components` loop of
`query_reachable_vulnerabilities`: the code calls `nx.has_path` and then
`nx.shortest_path`; both are folded into one `shortest_path` call here
(`.noPath` means `has_path` returned `False`; any other exception —
`NodeNotFound` when the project node is absent — is caught by the
enclosing `try`, abandoning the remaining components of this
vulnerability). -/
def qrvPerVuln (g : Graph) (pnode : String) (a : NodeAttrs) : List String → List VulnEntry
  | [] => []
  | comp :: rest =>
    match shortest_path g pnode comp with
    | Except.ok p =>
      { vulnerability := a.vid, component := (attrsOf g comp).name,
        version := (attrsOf g comp).version, path := p } :: qrvPerVuln g pnode a rest
    | Except.error PyExc.noPath => qrvPerVuln g pnode a rest
    | Except.error _ => []

/-- The outer `for node in self.graph.nodes()` loop. -/
def qrvNodes (g : Graph) (pnode : String) : List (String × NodeAttrs) → List VulnEntry
  | [] => []
  | (n, a) :: rest =>
    (if a.typ = some "vulnerability" then qrvPerVuln g pnode a (predecessors g n) else [])
      ++ qrvNodes g pnode rest

/-- `query_reachable_vulnerabilities(project_id, vulnerable_component)`.
The `vulnerable_component` parameter is declared but never read by the
body. -/
def query_reachable_vulnerabilities (g : Graph) (project_id : Int)
    (vulnerable_component : String) : List VulnEntry :=
  qrvNodes g (projectNodeId project_id) g.nodes

/-! ### `get_graph_data` -/

/-- Sequentially discover unvisited successors of one node
(returns the grown visited list and the newly discovered nodes in order). -/
def discoverFrom (g : Graph) (visited : List String) : List String → List String × List String
  | [] => (visited, [])
  | v :: vs =>
    if v ∈ visited then discoverFrom g visited vs
    else
      let p := discoverFrom g (visited ++ [v]) vs
      (p.1, v :: p.2)

/-- Expand a whole BFS level. -/
def discoverStep (g : Graph) (visited : List String) : List String → List String × List String
  | [] => (visited, [])
  | u :: us =>
    let p1 := discoverFrom g visited (successors g u)
    let p2 := discoverStep g p1.1 us
    (p2.1, p1.2 ++ p2.2)

/-- All nodes reachable from the frontier, in BFS discovery order. -/
def discover (g : Graph) : Nat → List String → List String → List String
  | 0, _, _ => []
  | Nat.succ fuel, visited, frontier =>
    let p := discoverStep g visited frontier
    if p.2.isEmpty then [] else p.2 ++ discover g fuel p.1 p.2

/-- `set(nx.descendants(graph, s))`: every node reachable from `s`
(excluding `s`, which BFS never re-yields).  A Python `set` iterates in a
hash-dependent, unspecified order; it is modelled here as BFS discovery
order.  No order the set could take is obtained by sorting node IDs. -/
def descendantsOrder (g : Graph) (s : String) : List String :=
  discover g (g.nodes.length + 1) [s] [s]

structure D3Node where
  id : String
  name : String
  typ : String
  vulns : List String
deriving DecidableEq, Repr

structure D3Link where
  source : String
  target : String
  relationship : String
deriving DecidableEq, Repr

structure GraphData where
  nodes : List D3Node
  links : List D3Link
deriving DecidableEq, Repr

def mkD3Node (g : Graph) (n : String) : D3Node :=
  { id := n, name := n, typ := (attrsOf g n).typ.getD "unknown",
    vulns := (attrsOf g n).vulns.getD [] }

/-- `graph.edges(nbunch)` on a `DiGraph`: the out-edges of the given
nodes; every edge in this model carries its `relationship` attribute, so
the `'unknown'` default is never taken. -/
def outLinks (g : Graph) (n : String) : List D3Link :=
  (g.edges.filter (fun e => e.1 == n)).map
    (fun e => { source := e.1, target := e.2.1, relationship := e.2.2 })

def linksFor (g : Graph) : List String → List D3Link
  | [] => []
  | n :: ns => outLinks g n ++ linksFor g ns

def nodesFor (g : Graph) : List String → List D3Node
  | [] => []
  | n :: ns => mkD3Node g n :: nodesFor g ns

/-- `get_graph_data(project_id)`.  On a missing project node,
`nx.descendants` reaches `G.neighbors(source)`, which raises
`NetworkXError("The node ... is not in the digraph.")`; the function's
`except (nx.NodeNotFound, KeyError)` clause does **not** catch
`NetworkXError`, so the exception propagates to the caller
(`.error .networkXError`). -/
def get_graph_data (g : Graph) (project_id : Int) : Except PyExc GraphData :=
  let pnode := projectNodeId project_id
  if hasNodeB g pnode then
    let subgraph := descendantsOrder g pnode ++ [pnode]
    Except.ok { nodes := nodesFor g subgraph, links := linksFor g subgraph }
  else Except.error PyExc.networkXError

/-! ### Persistence (`_save_graph`) -/

/-- Stand-in for `pickle.dump`'s opaque serialized byte stream; only
(in)equality of snapshots matters, and it is never the empty string. -/
def pickleDump (g : Graph) : String :=
  "P" ++ String.intercalate "," (g.nodes.map Prod.fst) ++ ";"
    ++ String.intercalate "," (g.edges.map (fun e => e.1 ++ ">" ++ e.2.1 ++ "@" ++ e.2.2))

/-- File-system events a save routine can emit. -/
inductive FsEvent
  | openTrunc (path : String)
  | writeData (path : String) (data : String)
  | closeFile (path : String)
  | renameInto (src : String) (dst : String)
deriving DecidableEq, Repr

def graph_file : String := "database/graph_store.pickle"

/-- `_save_graph`: `open(self.graph_file, 'wb')` truncates the snapshot in
place and `pickle.dump` writes into it — no temporary file, no rename. -/
def save_graph_trace (g : Graph) : List FsEvent :=
  [FsEvent.openTrunc graph_file, FsEvent.writeData graph_file (pickleDump g),
   FsEvent.closeFile graph_file]

def removeKey {β : Type} : List (String × β) → String → List (String × β)
  | [], _ => []
  | (j, b) :: rest, i => if j = i then removeKey rest i else (j, b) :: removeKey rest i

/-- Effect of one file-system event on the store (path to contents). -/
def applyFsEvent (fs : List (String × String)) : FsEvent → List (String × String)
  | FsEvent.openTrunc p => setA fs p ""
  | FsEvent.writeData p d => setA fs p ((lookupA fs p).getD "" ++ d)
  | FsEvent.closeFile _ => fs
  | FsEvent.renameInto src dst =>
    match lookupA fs src with
    | some c => setA (removeKey fs src) dst c
    | none => fs

def applyFsEvents : List (String × String) → List FsEvent → List (String × String)
  | fs, [] => fs
  | fs, e :: es => applyFsEvents (applyFsEvent fs e) es

/-- Contents of the snapshot file after the first `k` events of saving
`gNew` over a stored snapshot of `gOld` — what a reader observes if the
save is interrupted after `k` events. -/
def observeSnapshot (gOld gNew : Graph) (k : Nat) : Option String :=
  lookupA (applyFsEvents [(graph_file, pickleDump gOld)] ((save_graph_trace gNew).take k))
    graph_file

/-! ### Path validity (specification side) -/

/-- Consecutive elements are joined by an edge of the graph. -/
def chainOk (g : Graph) : List String → Prop
  | [] => True
  | [_] => True
  | u :: v :: rest => (∃ r, (u, v, r) ∈ g.edges) ∧ chainOk g (v :: rest)

/-- Shape of every node `generate_sbom` can create: a project node, one
of the five demo component nodes, or one of their vulnerability nodes. -/
def NodeIs (p : String × NodeAttrs) : Prop :=
  (∃ pid : Int, ∃ url, p.1 = projectNodeId pid ∧ p.2 = projAttrs url) ∨
  (∃ c, c ∈ demoComponents ∧ p.1 = compNodeId c ∧ p.2 = compAttrs c) ∨
  (∃ vid c, c ∈ demoComponents ∧ vid ∈ c.vulnerabilities ∧
    p.1 = vulnNodeId vid ∧ p.2 = vulnAttrs vid)

/-- Shape of every edge `generate_sbom` can create: `DEPENDS_ON` from a
project node to a demo component node, or `AFFECTED_BY` from a demo
component node to one of its vulnerability nodes. -/
def EdgeIs (e : String × String × String) : Prop :=
  (∃ pid : Int, ∃ c, c ∈ demoComponents ∧ e.1 = projectNodeId pid ∧
    e.2.1 = compNodeId c ∧ e.2.2 = "DEPENDS_ON") ∨
  (∃ c vid, c ∈ demoComponents ∧ vid ∈ c.vulnerabilities ∧
    e.1 = compNodeId c ∧ e.2.1 = vulnNodeId vid ∧ e.2.2 = "AFFECTED_BY")

/-- Invariant of every graph state the program can reach: node and edge
shapes, edge endpoints present as nodes, and no duplicate node keys. -/
def GInv (g : Graph) : Prop :=
  (∀ p ∈ g.nodes, NodeIs p) ∧
  (∀ e ∈ g.edges, EdgeIs e) ∧
  (∀ e ∈ g.edges, hasNodeB g e.1 = true ∧ hasNodeB g e.2.1 = true) ∧
  (g.nodes.map Prod.fst).Nodup

/-- The graph facts `generate_sbom project_id repo_url` leaves behind, which
make a repeat of the very same call a no-op: the exact project binding, and
for every demo component its exact node binding, its `DEPENDS_ON` edge, the
existence of each of its vulnerability nodes and its `AFFECTED_BY` edges. -/
def SbomReady (g : Graph) (pid : Int) (url : String) : Prop :=
  lookupA g.nodes (projectNodeId pid) = some (projAttrs url) ∧
  ∀ c ∈ demoComponents,
    lookupA g.nodes (compNodeId c) = some (compAttrs c) ∧
    lookupE g.edges (projectNodeId pid) (compNodeId c) = some "DEPENDS_ON" ∧
    ∀ vid ∈ c.vulnerabilities,
      hasNodeB g (vulnNodeId vid) = true ∧
      lookupE g.edges (compNodeId c) (vulnNodeId vid) = some "AFFECTED_BY"

/-! # Theorems -/

/-! ## Order theory of `semver` comparison

`_nat_cmp` (and hence `Version.compare`) is proved to be a linear
preorder on *parsed* versions by showing it coincides with ordinary
lexicographic comparison of the prerelease tag lists.  (On arbitrary
strings `_nat_cmp`'s final `cmp(len(a), len(b))` tie-break is not
transitive; parsed prereleases have canonical numeric identifiers, which
restores transitivity.) -/

theorem intCmpN_eq_zero {a b : Nat} : intCmpN a b = 0 ↔ a = b := by
  unfold intCmpN; split_ifs <;> simp <;> omega

theorem intCmpN_neg (a b : Nat) : intCmpN a b = -(intCmpN b a) := by
  unfold intCmpN; split_ifs <;> simp <;> omega

theorem intCmpN_lt {a b : Nat} : intCmpN a b < 0 ↔ a < b := by
  unfold intCmpN; split_ifs <;> simp <;> omega

theorem charCmp_eq_zero {a b : Char} (h : charCmp a b = 0) : a = b := by
  have h2 : a.toNat = b.toNat := intCmpN_eq_zero.mp h
  have h3 : Char.ofNat a.toNat = Char.ofNat b.toNat := by rw [h2]
  rwa [Char.ofNat_toNat, Char.ofNat_toNat] at h3

theorem charCmp_neg (a b : Char) : charCmp a b = -(charCmp b a) :=
  intCmpN_neg _ _

theorem charCmp_lt_trans {a b c : Char} (h1 : charCmp a b < 0) (h2 : charCmp b c < 0) :
    charCmp a c < 0 := by
  rw [charCmp, intCmpN_lt] at h1 h2 ⊢; omega

theorem charCmp_refl (a : Char) : charCmp a a = 0 := by
  have := charCmp_neg a a; omega

theorem strCmpL_eq_zero : ∀ (a b : List Char), strCmpL a b = 0 → a = b := by
  intro a
  induction a with
  | nil =>
    intro b h
    cases b with
    | nil => rfl
    | cons y ys => simp [strCmpL] at h
  | cons x xs ih =>
    intro b h
    cases b with
    | nil => simp [strCmpL] at h
    | cons y ys =>
      by_cases hc : charCmp x y = 0
      · rw [charCmp_eq_zero hc]
        rw [strCmpL, if_pos hc] at h
        rw [ih ys h]
      · rw [strCmpL, if_neg hc] at h
        exact absurd h hc

theorem strCmpL_neg : ∀ (a b : List Char), strCmpL a b = -(strCmpL b a) := by
  intro a
  induction a with
  | nil => intro b; cases b <;> simp [strCmpL]
  | cons x xs ih =>
    intro b
    cases b with
    | nil => simp [strCmpL]
    | cons y ys =>
      by_cases hc : charCmp x y = 0
      · have hc' : charCmp y x = 0 := by rw [charCmp_neg] at hc; omega
        rw [strCmpL, if_pos hc, strCmpL, if_pos hc']
        exact ih ys
      · have hc' : ¬ charCmp y x = 0 := by rw [charCmp_neg]; omega
        rw [strCmpL, if_neg hc, strCmpL, if_neg hc']
        exact charCmp_neg x y

theorem strCmpL_lt_trans : ∀ (a b c : List Char),
    strCmpL a b < 0 → strCmpL b c < 0 → strCmpL a c < 0 := by
  intro a
  induction a with
  | nil =>
    intro b c h1 h2
    cases b with
    | nil => simp [strCmpL] at h1
    | cons y ys =>
      cases c with
      | nil => simp [strCmpL] at h2
      | cons z zs => simp [strCmpL]
  | cons x xs ih =>
    intro b c h1 h2
    cases b with
    | nil => simp [strCmpL] at h1
    | cons y ys =>
      cases c with
      | nil => simp [strCmpL] at h2
      | cons z zs =>
        by_cases hxy : charCmp x y = 0
        · have hx : x = y := charCmp_eq_zero hxy
          subst hx
          rw [strCmpL, if_pos hxy] at h1
          by_cases hyz : charCmp x z = 0
          · rw [strCmpL, if_pos hyz] at h2 ⊢
            exact ih ys zs h1 h2
          · rw [strCmpL, if_neg hyz] at h2 ⊢
            exact h2
        · rw [strCmpL, if_neg hxy] at h1
          by_cases hyz : charCmp y z = 0
          · have hy : y = z := charCmp_eq_zero hyz
            subst hy
            rw [strCmpL, if_neg hxy]
            exact h1
          · rw [strCmpL, if_neg hyz] at h2
            have h3 := charCmp_lt_trans h1 h2
            rw [strCmpL, if_neg (by omega : ¬ charCmp x z = 0)]
            exact h3

theorem tagCmp_eq_zero : ∀ {x y : Nat ⊕ List Char}, tagCmp x y = 0 → x = y := by
  intro x y h
  cases x <;> cases y <;> simp [tagCmp] at h ⊢
  · exact intCmpN_eq_zero.mp h
  · exact strCmpL_eq_zero _ _ h

theorem tagCmp_neg (x y : Nat ⊕ List Char) : tagCmp x y = -(tagCmp y x) := by
  cases x <;> cases y <;> simp [tagCmp]
  · exact intCmpN_neg _ _
  · exact strCmpL_neg _ _

theorem tagCmp_lt_trans : ∀ {x y z : Nat ⊕ List Char},
    tagCmp x y < 0 → tagCmp y z < 0 → tagCmp x z < 0 := by
  intro x y z h1 h2
  cases x <;> cases y <;> cases z <;> simp [tagCmp] at h1 h2 ⊢
  · rw [intCmpN_lt] at h1 h2 ⊢; omega
  · exact strCmpL_lt_trans _ _ _ h1 h2

theorem lexCmpT_eq_zero : ∀ (a b : List (Nat ⊕ List Char)), lexCmpT a b = 0 → a = b := by
  intro a
  induction a with
  | nil =>
    intro b h
    cases b with
    | nil => rfl
    | cons y ys => simp [lexCmpT] at h
  | cons x xs ih =>
    intro b h
    cases b with
    | nil => simp [lexCmpT] at h
    | cons y ys =>
      by_cases hc : tagCmp x y = 0
      · rw [tagCmp_eq_zero hc]
        rw [lexCmpT, if_pos hc] at h
        rw [ih ys h]
      · rw [lexCmpT, if_neg hc] at h
        exact absurd h hc

theorem lexCmpT_neg : ∀ (a b : List (Nat ⊕ List Char)), lexCmpT a b = -(lexCmpT b a) := by
  intro a
  induction a with
  | nil => intro b; cases b <;> simp [lexCmpT]
  | cons x xs ih =>
    intro b
    cases b with
    | nil => simp [lexCmpT]
    | cons y ys =>
      by_cases hc : tagCmp x y = 0
      · have hc' : tagCmp y x = 0 := by rw [tagCmp_neg] at hc; omega
        rw [lexCmpT, if_pos hc, lexCmpT, if_pos hc']
        exact ih ys
      · have hc' : ¬ tagCmp y x = 0 := by rw [tagCmp_neg]; omega
        rw [lexCmpT, if_neg hc, lexCmpT, if_neg hc']
        exact tagCmp_neg x y

theorem lexCmpT_lt_trans : ∀ (a b c : List (Nat ⊕ List Char)),
    lexCmpT a b < 0 → lexCmpT b c < 0 → lexCmpT a c < 0 := by
  intro a
  induction a with
  | nil =>
    intro b c h1 h2
    cases b with
    | nil => simp [lexCmpT] at h1
    | cons y ys =>
      cases c with
      | nil => simp [lexCmpT] at h2
      | cons z zs => simp [lexCmpT]
  | cons x xs ih =>
    intro b c h1 h2
    cases b with
    | nil => simp [lexCmpT] at h1
    | cons y ys =>
      cases c with
      | nil => simp [lexCmpT] at h2
      | cons z zs =>
        by_cases hxy : tagCmp x y = 0
        · have hx : x = y := tagCmp_eq_zero hxy
          subst hx
          rw [lexCmpT, if_pos hxy] at h1
          by_cases hyz : tagCmp x z = 0
          · rw [lexCmpT, if_pos hyz] at h2 ⊢
            exact ih ys zs h1 h2
          · rw [lexCmpT, if_neg hyz] at h2 ⊢
            exact h2
        · rw [lexCmpT, if_neg hxy] at h1
          by_cases hyz : tagCmp y z = 0
          · have hy : y = z := tagCmp_eq_zero hyz
            subst hy
            rw [lexCmpT, if_neg hxy]
            exact h1
          · rw [lexCmpT, if_neg hyz] at h2
            have h3 := tagCmp_lt_trans h1 h2
            rw [lexCmpT, if_neg (by omega : ¬ tagCmp x z = 0)]
            exact h3

theorem zipCmp_neg : ∀ (a b : List (Nat ⊕ List Char)), zipCmp a b = -(zipCmp b a) := by
  intro a
  induction a with
  | nil => intro b; cases b <;> simp [zipCmp]
  | cons x xs ih =>
    intro b
    cases b with
    | nil => simp [zipCmp]
    | cons y ys =>
      by_cases hc : tagCmp x y = 0
      · have hc' : tagCmp y x = 0 := by rw [tagCmp_neg] at hc; omega
        rw [zipCmp, if_pos hc, zipCmp, if_pos hc']
        exact ih ys
      · have hc' : ¬ tagCmp y x = 0 := by rw [tagCmp_neg]; omega
        rw [zipCmp, if_neg hc, zipCmp, if_neg hc']
        exact tagCmp_neg x y

/-! ### Canonical digit strings determine their value injectively -/

theorem isDigit_bounds {c : Char} (h : c.isDigit = true) : 48 ≤ c.toNat ∧ c.toNat ≤ 57 := by
  simp [Char.isDigit] at h
  exact h

theorem char_eq_of_toNat {a b : Char} (h : a.toNat = b.toNat) : a = b := by
  have h3 : Char.ofNat a.toNat = Char.ofNat b.toNat := by rw [h]
  rwa [Char.ofNat_toNat, Char.ofNat_toNat] at h3

theorem digitsVal_acc (l : List Char) :
    ∀ acc, l.foldl dstep acc = acc * 10 ^ l.length + digitsVal l := by
  induction l with
  | nil => intro acc; simp [digitsVal]
  | cons c cs ih =>
    intro acc
    rw [List.foldl_cons, ih (dstep acc c),
      show digitsVal (c :: cs) = List.foldl dstep (dstep 0 c) cs from rfl, ih (dstep 0 c),
      List.length_cons]
    unfold dstep
    ring

theorem digitsVal_cons (c : Char) (cs : List Char) :
    digitsVal (c :: cs) = (c.toNat - 48) * 10 ^ cs.length + digitsVal cs := by
  rw [show digitsVal (c :: cs) = List.foldl dstep (dstep 0 c) cs from rfl,
    digitsVal_acc cs (dstep 0 c)]
  unfold dstep
  ring

theorem digitsVal_lt {l : List Char} (h : l.all Char.isDigit = true) :
    digitsVal l < 10 ^ l.length := by
  induction l with
  | nil => simp [digitsVal]
  | cons c cs ih =>
    simp only [List.all_cons, Bool.and_eq_true] at h
    have hd := isDigit_bounds h.1
    rw [digitsVal_cons]
    have h3 := ih h.2
    have h5 : (c.toNat - 48) * 10 ^ cs.length ≤ 9 * 10 ^ cs.length :=
      Nat.mul_le_mul_right _ (by omega)
    have h6 : (10 : Nat) ^ (c :: cs).length = 10 * 10 ^ cs.length := by
      rw [List.length_cons]; ring
    omega

theorem digitsVal_ge {c : Char} {cs : List Char} (hc : c.isDigit = true) (h0 : ¬ c = '0') :
    10 ^ cs.length ≤ digitsVal (c :: cs) := by
  have hd := isDigit_bounds hc
  have h1 : ¬ (c.toNat = 48) := fun he => h0 (char_eq_of_toNat (by rw [he]; rfl))
  have h3 := digitsVal_cons c cs
  have h4 : 1 * 10 ^ cs.length ≤ (c.toNat - 48) * 10 ^ cs.length :=
    Nat.mul_le_mul_right _ (by omega)
  omega

theorem digits_inj_len : ∀ (p q : List Char), p.length = q.length →
    p.all Char.isDigit = true → q.all Char.isDigit = true →
    digitsVal p = digitsVal q → p = q := by
  intro p
  induction p with
  | nil =>
    intro q hl _ _ _
    cases q with
    | nil => rfl
    | cons d ds => simp at hl
  | cons c cs ih =>
    intro q hl hp hq hv
    cases q with
    | nil => simp at hl
    | cons d ds =>
      simp only [List.length_cons] at hl
      have hl' : cs.length = ds.length := by omega
      simp only [List.all_cons, Bool.and_eq_true] at hp hq
      rw [digitsVal_cons, digitsVal_cons, hl'] at hv
      have b1 := isDigit_bounds hp.1
      have b2 := isDigit_bounds hq.1
      have r1 := digitsVal_lt hp.2
      have r2 := digitsVal_lt hq.2
      rw [hl'] at r1
      have hcd : c.toNat - 48 = d.toNat - 48 := by
        by_contra hne
        rcases Nat.lt_or_ge (c.toNat - 48) (d.toNat - 48) with hlt | hge
        · have hstep : (c.toNat - 48 + 1) * 10 ^ ds.length ≤ (d.toNat - 48) * 10 ^ ds.length :=
            Nat.mul_le_mul_right _ (by omega)
          rw [Nat.add_mul, Nat.one_mul] at hstep
          omega
        · have hlt2 : d.toNat - 48 < c.toNat - 48 := by omega
          have hstep : (d.toNat - 48 + 1) * 10 ^ ds.length ≤ (c.toNat - 48) * 10 ^ ds.length :=
            Nat.mul_le_mul_right _ (by omega)
          rw [Nat.add_mul, Nat.one_mul] at hstep
          omega
      have hc_eq : c = d := char_eq_of_toNat (by omega)
      have hv2 : digitsVal cs = digitsVal ds := by rw [hcd] at hv; omega
      rw [hc_eq, ih ds hl' hp.2 hq.2 hv2]

theorem isCanonNum_spec : ∀ {l : List Char}, isCanonNum l = true →
    l ≠ [] ∧ l.all Char.isDigit = true ∧ (∀ c cs, l = c :: cs → cs ≠ [] → ¬ c = '0') := by
  intro l h
  obtain - | ⟨c, - | ⟨c2, cs⟩⟩ := l
  · simp [isCanonNum] at h
  · simp only [isCanonNum] at h
    refine ⟨by simp, by simp [h], ?_⟩
    intro c' cs' he hne
    injection he with h1 h2
    exact absurd h2.symm hne
  · simp only [isCanonNum, Bool.and_eq_true, Bool.not_eq_true',
      decide_eq_false_iff_not] at h
    obtain ⟨⟨hcd, hc0⟩, hall⟩ := h
    refine ⟨by simp, ?_, ?_⟩
    · simp only [List.all_cons, Bool.and_eq_true] at hall ⊢
      exact ⟨hcd, hall⟩
    · intro c' cs' he hne
      injection he with h1 h2
      subst h1
      exact hc0

theorem digits_lt_of_shorter {p q : List Char}
    (hp0 : p ≠ []) (hpd : p.all Char.isDigit = true)
    (hq0 : q ≠ []) (hqd : q.all Char.isDigit = true)
    (hqz : ∀ c cs, q = c :: cs → cs ≠ [] → ¬ c = '0')
    (hlt : p.length < q.length) : digitsVal p < digitsVal q := by
  cases q with
  | nil => exact absurd rfl hq0
  | cons d ds =>
    have hp1 : 1 ≤ p.length := List.length_pos.mpr hp0
    have hds : ds ≠ [] := by
      have h2 : 1 ≤ ds.length := by simp only [List.length_cons] at hlt; omega
      intro he; rw [he] at h2; simp at h2
    have hd0 : ¬ d = '0' := hqz d ds rfl hds
    simp only [List.all_cons, Bool.and_eq_true] at hqd
    have h1 : 10 ^ ds.length ≤ digitsVal (d :: ds) := digitsVal_ge hqd.1 hd0
    have h2 : digitsVal p < 10 ^ p.length := digitsVal_lt hpd
    have h3 : (10 : Nat) ^ p.length ≤ 10 ^ ds.length :=
      Nat.pow_le_pow_right (by omega) (by simp only [List.length_cons] at hlt; omega)
    omega

theorem digits_inj_canon {p q : List Char} (hp : isCanonNum p = true)
    (hq : isCanonNum q = true) (hv : digitsVal p = digitsVal q) : p = q := by
  obtain ⟨hp0, hpd, hpz⟩ := isCanonNum_spec hp
  obtain ⟨hq0, hqd, hqz⟩ := isCanonNum_spec hq
  rcases Nat.lt_trichotomy p.length q.length with hlt | heq | hgt
  · exact absurd hv (Nat.ne_of_lt (digits_lt_of_shorter hp0 hpd hq0 hqd hqz hlt))
  · exact digits_inj_len p q heq hpd hqd hv
  · exact absurd hv.symm (Nat.ne_of_lt (digits_lt_of_shorter hq0 hqd hp0 hpd hpz hgt))

theorem validPreId_spec {l : List Char} (h : validPreId l = true) :
    l ≠ [] ∧ (l.all Char.isDigit = true → isCanonNum l = true) := by
  unfold validPreId at h
  simp only [Bool.and_eq_true, Bool.or_eq_true, Bool.not_eq_true'] at h
  obtain ⟨⟨h1, _⟩, h3⟩ := h
  constructor
  · intro he; rw [he] at h1; simp at h1
  · intro hd
    rcases h3 with h3 | h3
    · rw [hd] at h3; simp at h3
    · exact h3

theorem toTag_inj {p q : List Char} (hp : validPreId p = true) (hq : validPreId q = true)
    (h : toTag p = toTag q) : p = q := by
  unfold toTag at h
  by_cases h1 : (!p.isEmpty && p.all Char.isDigit) = true
  · by_cases h2 : (!q.isEmpty && q.all Char.isDigit) = true
    · rw [if_pos h1, if_pos h2] at h
      injection h with hv
      simp only [Bool.and_eq_true] at h1 h2
      exact digits_inj_canon ((validPreId_spec hp).2 h1.2) ((validPreId_spec hq).2 h2.2) hv
    · rw [if_pos h1, if_neg h2] at h
      exact absurd h (by simp)
  · by_cases h2 : (!q.isEmpty && q.all Char.isDigit) = true
    · rw [if_neg h1, if_pos h2] at h
      exact absurd h (by simp)
    · rw [if_neg h1, if_neg h2] at h
      injection h

/-! ### `_nat_cmp` coincides with lexicographic tag comparison on valid parts -/

theorem partsLen_cons (p : List Char) (ps : List (List Char)) :
    partsLen (p :: ps) = p.length + (if ps = [] then 0 else 1 + partsLen ps) := by
  unfold partsLen
  cases ps with
  | nil => simp
  | cons q qs =>
    simp only [List.map_cons, List.sum_cons, List.length_cons, if_neg (List.cons_ne_nil q qs)]
    omega

theorem partsLen_pos {ps : List (List Char)} (hne : ps ≠ [])
    (hv : ∀ p ∈ ps, validPreId p = true) : 1 ≤ partsLen ps := by
  cases ps with
  | nil => exact absurd rfl hne
  | cons p ps' =>
    have h1 : p ≠ [] := (validPreId_spec (hv p (List.mem_cons_self p ps'))).1
    have h2 : 1 ≤ p.length := List.length_pos.mpr h1
    rw [partsLen_cons]
    split <;> omega

theorem splitOnChar_ne_nil (sep : Char) : ∀ l, splitOnChar sep l ≠ [] := by
  intro l
  induction l with
  | nil => simp [splitOnChar]
  | cons c cs ih =>
    simp only [splitOnChar]
    by_cases hc : c = sep
    · simp [hc]
    · simp only [if_neg hc]
      cases hr : splitOnChar sep cs with
      | nil => simp
      | cons p ps => simp

theorem partsLen_split (sep : Char) : ∀ l, partsLen (splitOnChar sep l) = l.length := by
  intro l
  induction l with
  | nil => simp [splitOnChar, partsLen]
  | cons c cs ih =>
    simp only [splitOnChar]
    by_cases hc : c = sep
    · simp only [if_pos hc]
      rw [partsLen_cons, if_neg (splitOnChar_ne_nil sep cs), ih]
      simp only [List.length_nil, List.length_cons]
      omega
    · simp only [if_neg hc]
      cases hr : splitOnChar sep cs with
      | nil => exact absurd hr (splitOnChar_ne_nil sep cs)
      | cons p ps =>
        have ih2 : partsLen (p :: ps) = cs.length := by rw [← hr]; exact ih
        rw [partsLen_cons] at ih2
        rw [partsLen_cons]
        by_cases hps : ps = []
        · rw [if_pos hps] at ih2 ⊢
          simp only [List.length_cons]
          omega
        · rw [if_neg hps] at ih2 ⊢
          simp only [List.length_cons]
          omega

theorem intCmpN_refl (a : Nat) : intCmpN a a = 0 :=
  intCmpN_eq_zero.mpr rfl

theorem partsLen_nil : partsLen ([] : List (List Char)) = 0 := rfl

theorem natParts_eq_lex : ∀ (pa pb : List (List Char)),
    (∀ p ∈ pa, validPreId p = true) → (∀ p ∈ pb, validPreId p = true) →
    (if zipCmp (pa.map toTag) (pb.map toTag) = 0
     then intCmpN (partsLen pa) (partsLen pb)
     else zipCmp (pa.map toTag) (pb.map toTag)) = lexCmpT (pa.map toTag) (pb.map toTag) := by
  intro pa
  induction pa with
  | nil =>
    intro pb hpa hpb
    cases pb with
    | nil => simp [zipCmp, lexCmpT, partsLen, intCmpN]
    | cons q qs =>
      have hpos := partsLen_pos (List.cons_ne_nil q qs) hpb
      simp only [List.map_nil, List.map_cons]
      have hz : zipCmp [] (toTag q :: List.map toTag qs) = 0 := rfl
      rw [if_pos hz]
      rw [show lexCmpT [] (toTag q :: List.map toTag qs) = -1 from rfl, partsLen_nil]
      unfold intCmpN
      split_ifs <;> omega
  | cons p ps ih =>
    intro pb hpa hpb
    cases pb with
    | nil =>
      have hpos := partsLen_pos (List.cons_ne_nil p ps) hpa
      simp only [List.map_cons, List.map_nil]
      have hz : zipCmp (toTag p :: List.map toTag ps) [] = 0 := rfl
      rw [if_pos hz]
      rw [show lexCmpT (toTag p :: List.map toTag ps) [] = 1 from rfl, partsLen_nil]
      unfold intCmpN
      split_ifs <;> omega
    | cons q qs =>
      by_cases ht : tagCmp (toTag p) (toTag q) = 0
      · have hpq : p = q := toTag_inj (hpa p (List.mem_cons_self p ps))
          (hpb q (List.mem_cons_self q qs)) (tagCmp_eq_zero ht)
        subst hpq
        simp only [List.map_cons]
        rw [zipCmp, if_pos ht, lexCmpT, if_pos ht]
        have hps : ∀ x ∈ ps, validPreId x = true := fun x hx => hpa x (List.mem_cons_of_mem _ hx)
        have hqs : ∀ x ∈ qs, validPreId x = true := fun x hx => hpb x (List.mem_cons_of_mem _ hx)
        have hlen : intCmpN (partsLen (p :: ps)) (partsLen (p :: qs))
            = intCmpN (partsLen ps) (partsLen qs) := by
          rw [partsLen_cons, partsLen_cons]
          by_cases h1 : ps = [] <;> by_cases h2 : qs = []
          · rw [if_pos h1, if_pos h2, h1, h2, intCmpN_refl, intCmpN_refl]
          · rw [if_pos h1, if_neg h2, h1, partsLen_nil]
            have := partsLen_pos h2 hqs
            unfold intCmpN
            split_ifs <;> omega
          · rw [if_neg h1, if_pos h2, h2, partsLen_nil]
            have := partsLen_pos h1 hps
            unfold intCmpN
            split_ifs <;> omega
          · rw [if_neg h1, if_neg h2]
            have := partsLen_pos h1 hps
            have := partsLen_pos h2 hqs
            unfold intCmpN
            split_ifs <;> omega
        rw [hlen]
        exact ih qs hps hqs
      · simp only [List.map_cons]
        rw [zipCmp, if_neg ht, lexCmpT, if_neg ht, if_neg ht]

theorem natCmpStr_eq_lex {a b : String} (ha : ValidPreS a) (hb : ValidPreS b) :
    natCmpStr a b
      = lexCmpT ((splitOnChar '.' a.data).map toTag) ((splitOnChar '.' b.data).map toTag) := by
  have h1 : a.length = partsLen (splitOnChar '.' a.data) := (partsLen_split '.' a.data).symm
  have h2 : b.length = partsLen (splitOnChar '.' b.data) := (partsLen_split '.' b.data).symm
  unfold natCmpStr
  rw [h1, h2]
  exact natParts_eq_lex _ _ ha hb

/-! ### `versionCompare` is a linear preorder on parsed versions -/

theorem thenCmp_eq_zero {c1 c2 : Int} : thenCmp c1 c2 = 0 ↔ c1 = 0 ∧ c2 = 0 := by
  unfold thenCmp
  split_ifs with h <;> simp [h]

theorem thenCmp_lt {c1 c2 : Int} : thenCmp c1 c2 < 0 ↔ c1 < 0 ∨ (c1 = 0 ∧ c2 < 0) := by
  unfold thenCmp
  split_ifs with h <;> simp [h] <;> omega

theorem thenCmp_neg {c1 c2 d1 d2 : Int} (h1 : c1 = -d1) (h2 : c2 = -d2) :
    thenCmp c1 c2 = -(thenCmp d1 d2) := by
  unfold thenCmp
  subst h1
  subst h2
  split_ifs <;> omega

theorem preKeyCmp_eq_zero : ∀ {x y : Option (List (Nat ⊕ List Char))},
    preKeyCmp x y = 0 → x = y := by
  intro x y h
  cases x <;> cases y <;> simp [preKeyCmp] at h ⊢
  exact lexCmpT_eq_zero _ _ h

theorem preKeyCmp_neg (x y : Option (List (Nat ⊕ List Char))) :
    preKeyCmp x y = -(preKeyCmp y x) := by
  cases x <;> cases y <;> simp [preKeyCmp]
  exact lexCmpT_neg _ _

theorem preKeyCmp_lt_trans : ∀ {x y z : Option (List (Nat ⊕ List Char))},
    preKeyCmp x y < 0 → preKeyCmp y z < 0 → preKeyCmp x z < 0 := by
  intro x y z h1 h2
  cases x <;> cases y <;> cases z <;> simp [preKeyCmp] at h1 h2 ⊢
  exact lexCmpT_lt_trans _ _ _ h1 h2

theorem vKeyCmp_neg (k1 k2 : Nat × Nat × Nat × Option (List (Nat ⊕ List Char))) :
    vKeyCmp k1 k2 = -(vKeyCmp k2 k1) := by
  unfold vKeyCmp
  exact thenCmp_neg (intCmpN_neg _ _)
    (thenCmp_neg (intCmpN_neg _ _)
      (thenCmp_neg (intCmpN_neg _ _) (preKeyCmp_neg _ _)))

theorem vKeyCmp_eq_zero {k1 k2 : Nat × Nat × Nat × Option (List (Nat ⊕ List Char))}
    (h : vKeyCmp k1 k2 = 0) : k1 = k2 := by
  obtain ⟨a1, b1, c1, d1⟩ := k1
  obtain ⟨a2, b2, c2, d2⟩ := k2
  unfold vKeyCmp at h
  rw [thenCmp_eq_zero] at h
  obtain ⟨ha, h⟩ := h
  rw [thenCmp_eq_zero] at h
  obtain ⟨hb, h⟩ := h
  rw [thenCmp_eq_zero] at h
  obtain ⟨hc, hd⟩ := h
  simp only at ha hb hc hd
  rw [intCmpN_eq_zero.mp ha, intCmpN_eq_zero.mp hb, intCmpN_eq_zero.mp hc,
    preKeyCmp_eq_zero hd]

theorem vKeyCmp_lt_trans {k1 k2 k3 : Nat × Nat × Nat × Option (List (Nat ⊕ List Char))}
    (h1 : vKeyCmp k1 k2 < 0) (h2 : vKeyCmp k2 k3 < 0) : vKeyCmp k1 k3 < 0 := by
  obtain ⟨a1, b1, c1, d1⟩ := k1
  obtain ⟨a2, b2, c2, d2⟩ := k2
  obtain ⟨a3, b3, c3, d3⟩ := k3
  unfold vKeyCmp at h1 h2 ⊢
  simp only [thenCmp_lt, intCmpN_lt, intCmpN_eq_zero] at h1 h2 ⊢
  rcases h1 with h1 | ⟨e1, h1⟩
  · rcases h2 with h2 | ⟨e2, _⟩ <;> [left; left] <;> omega
  · rcases h2 with h2 | ⟨e2, h2⟩
    · left; omega
    · right
      refine ⟨by omega, ?_⟩
      rcases h1 with h1 | ⟨f1, h1⟩
      · rcases h2 with h2 | ⟨f2, _⟩ <;> [left; left] <;> omega
      · rcases h2 with h2 | ⟨f2, h2⟩
        · left; omega
        · right
          refine ⟨by omega, ?_⟩
          rcases h1 with h1 | ⟨g1, h1⟩
          · rcases h2 with h2 | ⟨g2, _⟩ <;> [left; left] <;> omega
          · rcases h2 with h2 | ⟨g2, h2⟩
            · left; omega
            · right
              exact ⟨by omega, preKeyCmp_lt_trans h1 h2⟩

theorem vKeyCmp_le_trans {k1 k2 k3 : Nat × Nat × Nat × Option (List (Nat ⊕ List Char))}
    (h1 : vKeyCmp k1 k2 ≤ 0) (h2 : vKeyCmp k2 k3 ≤ 0) : vKeyCmp k1 k3 ≤ 0 := by
  by_cases hz1 : vKeyCmp k1 k2 = 0
  · rw [vKeyCmp_eq_zero hz1]
    exact h2
  · by_cases hz2 : vKeyCmp k2 k3 = 0
    · rw [← vKeyCmp_eq_zero hz2]
      exact h1
    · have := vKeyCmp_lt_trans (by omega : vKeyCmp k1 k2 < 0) (by omega : vKeyCmp k2 k3 < 0)
      omega

theorem natCmpStr_neg (a b : String) : natCmpStr a b = -(natCmpStr b a) := by
  simp only [natCmpStr]
  have hz := zipCmp_neg ((splitOnChar '.' a.data).map toTag) ((splitOnChar '.' b.data).map toTag)
  by_cases h : zipCmp ((splitOnChar '.' a.data).map toTag) ((splitOnChar '.' b.data).map toTag) = 0
  · have h' : zipCmp ((splitOnChar '.' b.data).map toTag) ((splitOnChar '.' a.data).map toTag) = 0 := by
      omega
    rw [if_pos h, if_pos h']
    exact intCmpN_neg _ _
  · have h' : ¬ zipCmp ((splitOnChar '.' b.data).map toTag) ((splitOnChar '.' a.data).map toTag) = 0 := by
      omega
    rw [if_neg h, if_neg h']
    omega

theorem preCmp_neg (x y : Option String) : preCmp x y = -(preCmp y x) := by
  cases x <;> cases y <;> simp [preCmp]
  exact natCmpStr_neg _ _

theorem versionCompare_neg (a b : PyVersion) : versionCompare a b = -(versionCompare b a) := by
  unfold versionCompare
  exact thenCmp_neg (intCmpN_neg _ _)
    (thenCmp_neg (intCmpN_neg _ _)
      (thenCmp_neg (intCmpN_neg _ _) (preCmp_neg _ _)))

theorem versionCompare_eq_vKeyCmp {a b : PyVersion} (ha : ValidV a) (hb : ValidV b) :
    versionCompare a b = vKeyCmp (vKey a) (vKey b) := by
  have hpre : preCmp a.prerelease b.prerelease
      = preKeyCmp (a.prerelease.map fun s => (splitOnChar '.' s.data).map toTag)
          (b.prerelease.map fun s => (splitOnChar '.' s.data).map toTag) := by
    cases hpa : a.prerelease <;> cases hpb : b.prerelease <;> simp [preCmp, preKeyCmp]
    exact natCmpStr_eq_lex (ha _ hpa) (hb _ hpb)
  unfold versionCompare vKeyCmp vKey
  simp only
  rw [hpre]

theorem parseMainChars_valid {main : List Char} {b : Option String} {v : PyVersion}
    (h : parseMainChars main b = some v) : ValidV v := by
  simp only [parseMainChars] at h
  split at h
  · split at h
    · split at h
      · injection h with h
        subst h
        intro s hs
        simp at hs
      · split at h
        · injection h with h
          subst h
          intro s hs
          simp only at hs
          injection hs with hs
          subst hs
          intro p hp
          rename_i hall
          rw [List.all_eq_true] at hall
          exact hall p hp
        · exact absurd h (by simp)
    · exact absurd h (by simp)
  · exact absurd h (by simp)

theorem parseVersion_valid {s : String} {v : PyVersion}
    (h : parseVersion s = some v) : ValidV v := by
  unfold parseVersion at h
  split at h
  · exact parseMainChars_valid h
  · split at h
    · exact parseMainChars_valid h
    · exact absurd h (by simp)
  · exact absurd h (by simp)

theorem versionCompareStr_neg (a b : String) :
    versionCompareStr a b = -(versionCompareStr b a) := by
  unfold versionCompareStr
  cases parseVersion a <;> cases parseVersion b <;> simp
  exact versionCompare_neg _ _

theorem versionCompareStr_le_trans {a b c : String} {va vb vc : PyVersion}
    (ha : parseVersion a = some va) (hb : parseVersion b = some vb)
    (hc : parseVersion c = some vc)
    (h1 : versionCompareStr a b ≤ 0) (h2 : versionCompareStr b c ≤ 0) :
    versionCompareStr a c ≤ 0 := by
  unfold versionCompareStr at h1 h2 ⊢
  rw [ha, hb] at h1
  rw [hb, hc] at h2
  rw [ha, hc]
  simp only at h1 h2 ⊢
  rw [versionCompare_eq_vKeyCmp (parseVersion_valid ha) (parseVersion_valid hb)] at h1
  rw [versionCompare_eq_vKeyCmp (parseVersion_valid hb) (parseVersion_valid hc)] at h2
  rw [versionCompare_eq_vKeyCmp (parseVersion_valid ha) (parseVersion_valid hc)]
  exact vKeyCmp_le_trans h1 h2

theorem versionCompareStr_le_total (a b : String) :
    versionCompareStr a b ≤ 0 ∨ versionCompareStr b a ≤ 0 := by
  have := versionCompareStr_neg a b
  omega

/-! ### The last element of a stable insertion sort is a maximum

(Python's `sorted` is a stable sort; with the non-strict key order,
`List.insertionSort` produces the same list.  Only totality everywhere
and transitivity on the elements actually present are assumed, since
`versionCompareStr` is transitive only on parseable strings.) -/

section SortMax

variable {α : Type} (r : α → α → Prop) [DecidableRel r]

theorem orderedInsert_ne_nil (x : α) (s : List α) : List.orderedInsert r x s ≠ [] := by
  cases s with
  | nil => simp [List.orderedInsert]
  | cons y ys =>
    rw [List.orderedInsert]
    split <;> simp

theorem getLastQ_orderedInsert (x : α) : ∀ (s : List α),
    (List.orderedInsert r x s).getLast? = some x
      ∨ (List.orderedInsert r x s).getLast? = s.getLast? := by
  intro s
  induction s with
  | nil => left; simp [List.orderedInsert]
  | cons y ys ih =>
    rw [List.orderedInsert]
    split
    · right
      exact List.getLast?_cons_cons
    · cases ys with
      | nil =>
        left
        simp [List.orderedInsert]
      | cons y2 ys2 =>
        cases hoi : List.orderedInsert r x (y2 :: ys2) with
        | nil => exact absurd hoi (orderedInsert_ne_nil r x _)
        | cons z zs =>
          rw [List.getLast?_cons_cons, ← hoi, List.getLast?_cons_cons]
          exact ih

theorem mem_of_getLastQ {l : List α} {m : α} (h : l.getLast? = some m) : m ∈ l := by
  obtain ⟨hne, he⟩ := List.mem_getLast?_eq_getLast (show m ∈ l.getLast? from h)
  rw [he]
  exact List.getLast_mem hne

theorem orderedInsert_last_max (P : α → Prop)
    (htot : ∀ a b, r a b ∨ r b a)
    (htr : ∀ a b c, P a → P b → P c → r a b → r b c → r a c) :
    ∀ (s : List α) (x : α), P x → (∀ y ∈ s, P y) →
      (∀ y ∈ s, ∀ m, s.getLast? = some m → r y m) →
      ∀ y ∈ x :: s, ∀ m, (List.orderedInsert r x s).getLast? = some m → r y m := by
  intro s
  induction s with
  | nil =>
    intro x hPx hPs hmax y hy m hm
    simp only [List.orderedInsert, List.getLast?_singleton, Option.some.injEq] at hm
    simp only [List.mem_singleton] at hy
    rw [hy, ← hm]
    rcases htot x x with h | h <;> exact h
  | cons y0 ys ih =>
    intro x hPx hPs hmax y hy m hm
    rw [List.orderedInsert] at hm
    split at hm
    · rename_i hrxy
      rw [List.getLast?_cons_cons] at hm
      have hmm : m ∈ y0 :: ys := mem_of_getLastQ hm
      rcases List.mem_cons.mp hy with hy | hy
      · rw [hy]
        have h1 : r y0 m := hmax y0 (List.mem_cons_self _ _) m hm
        exact htr x y0 m hPx (hPs y0 (List.mem_cons_self _ _)) (hPs m hmm) hrxy h1
      · exact hmax y hy m hm
    · rename_i hnrxy
      cases ys with
      | nil =>
        simp only [List.orderedInsert, List.getLast?_cons_cons,
          List.getLast?_singleton, Option.some.injEq] at hm
        rcases List.mem_cons.mp hy with hy | hy
        · rw [hy, ← hm]
          rcases htot x x with h | h <;> exact h
        · simp only [List.mem_singleton] at hy
          rw [hy, ← hm]
          rcases htot x y0 with h | h
          · exact absurd h hnrxy
          · exact h
      | cons y1 ys1 =>
        cases hoi : List.orderedInsert r x (y1 :: ys1) with
        | nil => exact absurd hoi (orderedInsert_ne_nil r x _)
        | cons z zs =>
          rw [hoi, List.getLast?_cons_cons, ← hoi] at hm
          have hPs1 : ∀ w ∈ y1 :: ys1, P w := fun w hw => hPs w (List.mem_cons_of_mem _ hw)
          have hmax1 : ∀ w ∈ y1 :: ys1, ∀ n, (y1 :: ys1).getLast? = some n → r w n := by
            intro w hw n hn
            exact hmax w (List.mem_cons_of_mem _ hw) n
              (by rw [List.getLast?_cons_cons]; exact hn)
          have hIH := ih x hPx hPs1 hmax1
          rcases List.mem_cons.mp hy with hy | hy
          · rw [hy]
            exact hIH x (List.mem_cons_self _ _) m hm
          · rcases List.mem_cons.mp hy with hy2 | hy2
            · rw [hy2]
              rcases getLastQ_orderedInsert r x (y1 :: ys1) with hl | hl
              · rw [hl] at hm
                injection hm with hm
                rw [← hm]
                rcases htot x y0 with h | h
                · exact absurd h hnrxy
                · exact h
              · rw [hl] at hm
                exact hmax y0 (List.mem_cons_self _ _) m
                  (by rw [List.getLast?_cons_cons]; exact hm)
            · exact hIH y (List.mem_cons_of_mem _ hy2) m hm

theorem insertionSort_last_max (P : α → Prop)
    (htot : ∀ a b, r a b ∨ r b a)
    (htr : ∀ a b c, P a → P b → P c → r a b → r b c → r a c) :
    ∀ (l : List α), (∀ y ∈ l, P y) →
      ∀ y ∈ l, ∀ m, (List.insertionSort r l).getLast? = some m → r y m := by
  intro l
  induction l with
  | nil =>
    intro _ y hy
    simp at hy
  | cons x l ih =>
    intro hP y hy m hm
    rw [List.insertionSort] at hm
    have hperm := List.perm_insertionSort r l
    have hPs : ∀ w ∈ List.insertionSort r l, P w := fun w hw =>
      hP w (List.mem_cons_of_mem _ (hperm.mem_iff.mp hw))
    have hmax : ∀ w ∈ List.insertionSort r l, ∀ n,
        (List.insertionSort r l).getLast? = some n → r w n := by
      intro w hw n hn
      exact ih (fun z hz => hP z (List.mem_cons_of_mem _ hz)) w (hperm.mem_iff.mp hw) n hn
    have hall := orderedInsert_last_max r P htot htr (List.insertionSort r l) x
      (hP x (List.mem_cons_self _ _)) hPs hmax
    rcases List.mem_cons.mp hy with hy | hy
    · rw [hy]
      exact hall x (List.mem_cons_self _ _) m hm
    · exact hall y (List.mem_cons_of_mem _ (hperm.mem_iff.mpr hy)) m hm

theorem insertionSort_getLastQ {l : List α} (h : l ≠ []) :
    ∃ m, (List.insertionSort r l).getLast? = some m ∧ m ∈ l := by
  have hne : List.insertionSort r l ≠ [] := by
    intro he
    have hp := List.perm_insertionSort r l
    rw [he] at hp
    exact h (hp.symm.eq_nil)
  refine ⟨(List.insertionSort r l).getLast hne,
    List.getLast?_eq_getLast_of_ne_nil hne, ?_⟩
  exact (List.perm_insertionSort r l).mem_iff.mp (List.getLast_mem hne)

end SortMax

/-! ### Behaviour of the resolver's candidate filtering -/

theorem semverCompareExc_ok {a b : String} {va vb : PyVersion}
    (ha : parseVersion a = some va) (hb : parseVersion b = some vb) :
    semverCompareExc a b = Except.ok (versionCompare va vb) := by
  unfold semverCompareExc
  rw [ha, hb]

theorem versionCompareStr_eq {a b : String} {va vb : PyVersion}
    (ha : parseVersion a = some va) (hb : parseVersion b = some vb) :
    versionCompareStr a b = versionCompare va vb := by
  unfold versionCompareStr
  rw [ha, hb]

theorem filterNewerExc_all_parse {cur : String} {vc : PyVersion}
    (hc : parseVersion cur = some vc) :
    ∀ {avail : List String}, (∀ v ∈ avail, (parseVersion v).isSome) →
    ∃ L, filterNewerExc cur avail = some L
      ∧ (∀ v, v ∈ L → v ∈ avail ∧ 0 < versionCompareStr v cur)
      ∧ (∀ v ∈ avail, 0 < versionCompareStr v cur → v ∈ L) := by
  intro avail
  induction avail with
  | nil =>
    intro _
    exact ⟨[], rfl, by simp, by simp⟩
  | cons v rest ih =>
    intro hall
    obtain ⟨vv, hvv⟩ := Option.isSome_iff_exists.mp (hall v (List.mem_cons_self _ _))
    obtain ⟨L, hL, hmem, hcomp⟩ := ih (fun w hw => hall w (List.mem_cons_of_mem _ hw))
    simp only [filterNewerExc, semverCompareExc_ok hvv hc, hL]
    by_cases hgt : 0 < versionCompare vv vc
    · refine ⟨v :: L, by rw [if_pos hgt], ?_, ?_⟩
      · intro w hw
        rcases List.mem_cons.mp hw with hw | hw
        · rw [hw]
          exact ⟨List.mem_cons_self _ _, by rw [versionCompareStr_eq hvv hc]; exact hgt⟩
        · have h2 := hmem w hw
          exact ⟨List.mem_cons_of_mem _ h2.1, h2.2⟩
      · intro w hw hgt2
        rcases List.mem_cons.mp hw with hw | hw
        · rw [hw]
          exact List.mem_cons_self _ _
        · exact List.mem_cons_of_mem _ (hcomp w hw hgt2)
    · refine ⟨L, by rw [if_neg hgt], ?_, ?_⟩
      · intro w hw
        have h2 := hmem w hw
        exact ⟨List.mem_cons_of_mem _ h2.1, h2.2⟩
      · intro w hw hgt2
        rcases List.mem_cons.mp hw with hw | hw
        · rw [hw, versionCompareStr_eq hvv hc] at hgt2
          exact absurd hgt2 hgt
        · exact hcomp w hw hgt2

theorem filterNewerExc_abort {cur : String} :
    ∀ {avail : List String}, (∃ v ∈ avail, parseVersion v = none) →
    filterNewerExc cur avail = none := by
  intro avail
  induction avail with
  | nil =>
    intro h
    simp at h
  | cons v rest ih =>
    intro h
    obtain ⟨w, hw, hwn⟩ := h
    rcases List.mem_cons.mp hw with hw | hw
    · rw [hw] at hwn
      rw [filterNewerExc,
        show semverCompareExc v cur = Except.error (v ++ " is not valid SemVer string") from by
          unfold semverCompareExc; rw [hwn]]
    · rw [filterNewerExc]
      cases hsc : semverCompareExc v cur with
      | error e => rfl
      | ok c => rw [ih ⟨w, hw, hwn⟩]

/-! ## Claim theorems for the upgrade resolver -/

/-- **C3** (amended: the infeasible reason string is `"Fixed version is not
newer"`, exactly as the code writes it).  For every database row whose
`fixed_version` is set and whose versions both parse,
`check_upgrade_feasibility` returns the feasible dict with
`to_version = fixed_version` and confidence exactly 0.9 **iff** the fixed
version is strictly greater than the current version under `semver`
ordering; otherwise it returns `feasible = False` with reason
`"Fixed version is not newer"`. -/
theorem claim_C3 (row : VulnRow) (f : String) (vf vc : PyVersion) (avail : List String)
    (hfix : row.fixedVersion = some f)
    (hf : parseVersion f = some vf) (hcur : parseVersion row.currentVersion = some vc) :
    (check_upgrade_feasibility row avail =
        { feasible := true, component := some row.component,
          from_version := some row.currentVersion, to_version := some f,
          confidence := some (9/10) }
      ↔ 0 < versionCompare vf vc) ∧
    (versionCompare vf vc ≤ 0 →
      check_upgrade_feasibility row avail =
        { feasible := false, reason := some "Fixed version is not newer" }) := by
  simp only [check_upgrade_feasibility, hfix, semverCompareExc_ok hf hcur]
  constructor
  · constructor
    · intro he
      by_contra hle
      rw [if_neg hle] at he
      have := congrArg FeasibilityResult.feasible he
      simp at this
    · intro hgt
      rw [if_pos hgt]
  · intro hle
    rw [if_neg (by omega)]

/-- Witness for C3 at the spec's own test vector
(`fixedVersion = "2.0.0"`, `currentVersion = "1.5.0"`). -/
theorem claim_C3_witness :
    (check_upgrade_feasibility ⟨"p", "1.5.0", some "2.0.0"⟩ [] =
        { feasible := true, component := some "p",
          from_version := some "1.5.0", to_version := some "2.0.0",
          confidence := some (9/10) }
      ↔ 0 < versionCompare ⟨2, 0, 0, none, none⟩ ⟨1, 5, 0, none, none⟩) ∧
    (versionCompare ⟨2, 0, 0, none, none⟩ ⟨1, 5, 0, none, none⟩ ≤ 0 →
      check_upgrade_feasibility ⟨"p", "1.5.0", some "2.0.0"⟩ [] =
        { feasible := false, reason := some "Fixed version is not newer" }) :=
  claim_C3 ⟨"p", "1.5.0", some "2.0.0"⟩ "2.0.0" ⟨2, 0, 0, none, none⟩
    ⟨1, 5, 0, none, none⟩ [] rfl (by decide) (by decide)

/-- C3 as literally stated is false: in the infeasible case the reason is
`"Fixed version is not newer"`, not `"fixed version not newer"`. -/
theorem claim_C3_counterexample :
    ¬ ((check_upgrade_feasibility ⟨"p", "1.5.0", some "1.0.0"⟩ []).feasible = false ∧
       (check_upgrade_feasibility ⟨"p", "1.5.0", some "1.0.0"⟩ []).reason
         = some "fixed version not newer") := by
  intro h
  exact absurd h.2 (by decide)

/-- **C6** (amended: the check never raises and reports infeasible, but the
reason is `str(e)` of the `semver` `ValueError` when `fixed_version` is
set — naming whichever version fails to parse first — and
`"No safe upgrade path found"` when it is absent, never the literal
`"unparsable current version"`). -/
theorem claim_C6 (row : VulnRow) (avail : List String)
    (hbad : parseVersion row.currentVersion = none) :
    (check_upgrade_feasibility row avail).feasible = false ∧
    (check_upgrade_feasibility row avail).reason = some (
      match row.fixedVersion with
      | some f =>
        match parseVersion f with
        | none => f ++ " is not valid SemVer string"
        | some _ => row.currentVersion ++ " is not valid SemVer string"
      | none => "No safe upgrade path found") := by
  cases hfix : row.fixedVersion with
  | some f =>
    cases hpf : parseVersion f with
    | none =>
      rw [show check_upgrade_feasibility row avail =
          { feasible := false, reason := some (f ++ " is not valid SemVer string") } from by
        simp only [check_upgrade_feasibility, hfix,
          show semverCompareExc f row.currentVersion
            = Except.error (f ++ " is not valid SemVer string") from by
              unfold semverCompareExc; rw [hpf]]]
      refine ⟨rfl, ?_⟩
      show some (f ++ " is not valid SemVer string")
        = some (match parseVersion f with
          | none => f ++ " is not valid SemVer string"
          | some _ => row.currentVersion ++ " is not valid SemVer string")
      rw [hpf]
    | some vf =>
      rw [show check_upgrade_feasibility row avail =
          { feasible := false,
            reason := some (row.currentVersion ++ " is not valid SemVer string") } from by
        simp only [check_upgrade_feasibility, hfix,
          show semverCompareExc f row.currentVersion
            = Except.error (row.currentVersion ++ " is not valid SemVer string") from by
              unfold semverCompareExc; rw [hpf, hbad]]]
      refine ⟨rfl, ?_⟩
      show some (row.currentVersion ++ " is not valid SemVer string")
        = some (match parseVersion f with
          | none => f ++ " is not valid SemVer string"
          | some _ => row.currentVersion ++ " is not valid SemVer string")
      rw [hpf]
  | none =>
    have hfl : find_latest_safe_version avail row.currentVersion = none := by
      cases avail with
      | nil => rfl
      | cons v rest =>
        cases hpv : parseVersion v with
        | none =>
          simp only [find_latest_safe_version, filterNewerExc,
            show semverCompareExc v row.currentVersion
              = Except.error (v ++ " is not valid SemVer string") from by
                unfold semverCompareExc; rw [hpv]]
        | some vv =>
          simp only [find_latest_safe_version, filterNewerExc,
            show semverCompareExc v row.currentVersion
              = Except.error (row.currentVersion ++ " is not valid SemVer string") from by
                unfold semverCompareExc; rw [hpv, hbad]]
    rw [show check_upgrade_feasibility row avail =
        { feasible := false, reason := some "No safe upgrade path found" } from by
      simp only [check_upgrade_feasibility, hfix, hfl]]
    exact ⟨rfl, rfl⟩

/-- Witness for C6: an unparsable current version with a parsable fixed
version yields `feasible = False` with the `ValueError` text. -/
theorem claim_C6_witness :
    (check_upgrade_feasibility ⟨"p", "abc", some "1.0.0"⟩ []).feasible = false ∧
    (check_upgrade_feasibility ⟨"p", "abc", some "1.0.0"⟩ []).reason
      = some ("abc" ++ " is not valid SemVer string") :=
  claim_C6 ⟨"p", "abc", some "1.0.0"⟩ [] (by decide)

/-- C6 as literally stated is false: the reason is the exception text
`"abc is not valid SemVer string"`, never `"unparsable current version"`. -/
theorem claim_C6_counterexample :
    ¬ ((check_upgrade_feasibility ⟨"p", "abc", some "1.0.0"⟩ []).feasible = false ∧
       (check_upgrade_feasibility ⟨"p", "abc", some "1.0.0"⟩ []).reason
         = some "unparsable current version") := by
  intro h
  exact absurd h.2 (by decide)

/-- **C7** (amended: an unparsable candidate does **not** merely get
excluded — the comprehension raises, the bare `except` swallows it, and
the whole source yields no candidates, so the result is infeasible with
`"No safe upgrade path found"`.  Only when every candidate parses does the
resolver return the maximum candidate strictly greater than the current
version, feasible with confidence 0.7, or `"No safe upgrade path found"`
when none is greater.) -/
theorem claim_C7 (row : VulnRow) (avail : List String) (vc : PyVersion)
    (hfix : row.fixedVersion = none)
    (hcur : parseVersion row.currentVersion = some vc) :
    ((∃ v ∈ avail, parseVersion v = none) →
      check_upgrade_feasibility row avail =
        { feasible := false, reason := some "No safe upgrade path found" }) ∧
    ((∀ v ∈ avail, (parseVersion v).isSome) →
      ((∀ v ∈ avail, versionCompareStr v row.currentVersion ≤ 0) →
        check_upgrade_feasibility row avail =
          { feasible := false, reason := some "No safe upgrade path found" }) ∧
      (∀ v0 ∈ avail, 0 < versionCompareStr v0 row.currentVersion →
        ∃ m, m ∈ avail ∧ 0 < versionCompareStr m row.currentVersion ∧
          (∀ v ∈ avail, 0 < versionCompareStr v row.currentVersion →
            versionCompareStr v m ≤ 0) ∧
          check_upgrade_feasibility row avail =
            { feasible := true, component := some row.component,
              from_version := some row.currentVersion,
              to_version := some m, confidence := some (7/10) })) := by
  constructor
  · intro hbad
    simp only [check_upgrade_feasibility, hfix,
      show find_latest_safe_version avail row.currentVersion = none from by
        simp only [find_latest_safe_version, filterNewerExc_abort hbad]]
  · intro hall
    obtain ⟨L, hL, hmem, hcomp⟩ := filterNewerExc_all_parse hcur hall
    constructor
    · intro hno
      have hLnil : L = [] := by
        rw [List.eq_nil_iff_forall_not_mem]
        intro w hw
        have h2 := hmem w hw
        have h3 := hno w h2.1
        omega
      simp only [check_upgrade_feasibility, hfix,
        show find_latest_safe_version avail row.currentVersion = none from by
          simp only [find_latest_safe_version, hL, hLnil]
          rfl]
    · intro v0 hv0 hgt0
      have hLne : L ≠ [] := by
        intro he
        have h2 := hcomp v0 hv0 hgt0
        rw [he] at h2
        simp at h2
      obtain ⟨m, hm, hmmem⟩ :=
        insertionSort_getLastQ (fun a b => versionCompareStr a b ≤ 0) hLne
      refine ⟨m, (hmem m hmmem).1, (hmem m hmmem).2, ?_, ?_⟩
      · intro v hv hgtv
        have hvL : v ∈ L := hcomp v hv hgtv
        exact insertionSort_last_max (fun a b => versionCompareStr a b ≤ 0)
          (fun s => (parseVersion s).isSome)
          versionCompareStr_le_total
          (by
            intro a b c Pa Pb Pc hab hbc
            obtain ⟨va, hva⟩ := Option.isSome_iff_exists.mp Pa
            obtain ⟨vb, hvb⟩ := Option.isSome_iff_exists.mp Pb
            obtain ⟨vcx, hvcx⟩ := Option.isSome_iff_exists.mp Pc
            exact versionCompareStr_le_trans hva hvb hvcx hab hbc)
          L (fun y hy => hall y (hmem y hy).1) v hvL m hm
      · simp only [check_upgrade_feasibility, hfix,
          show find_latest_safe_version avail row.currentVersion = some m from by
            simp only [find_latest_safe_version, hL]
            rw [if_neg (by
              intro he
              exact hLne (List.isEmpty_iff.mp he))]
            exact hm]

/-- Witness for C7: an unparsable candidate aborts the search even though a
strictly newer parsable candidate exists. -/
theorem claim_C7_witness :
    check_upgrade_feasibility ⟨"p", "1.0.0", none⟩ ["1.2.0", "abc"] =
      { feasible := false, reason := some "No safe upgrade path found" } :=
  (claim_C7 ⟨"p", "1.0.0", none⟩ ["1.2.0", "abc"] ⟨1, 0, 0, none, none⟩ rfl (by decide)).1
    ⟨"abc", by decide, by decide⟩

/-- C7 as literally stated is false: with candidates `["1.2.0", "abc"]` and
current version `"1.0.0"` the claim demands a feasible result selecting
`"1.2.0"`, but the unparsable `"abc"` aborts the whole search. -/
theorem claim_C7_counterexample :
    ¬ ((check_upgrade_feasibility ⟨"p", "1.0.0", none⟩ ["1.2.0", "abc"]).feasible = true ∧
       (check_upgrade_feasibility ⟨"p", "1.0.0", none⟩ ["1.2.0", "abc"]).to_version
         = some "1.2.0") := by
  intro h
  exact absurd h.1 (by decide)

/-! ## Graph-store lemmas -/

theorem lookupA_setA {β : Type} : ∀ (l : List (String × β)) (i : String) (b : β) (j : String),
    lookupA (setA l i b) j = if j = i then some b else lookupA l j := by
  intro l
  induction l with
  | nil =>
    intro i b j
    by_cases h : j = i
    · rw [if_pos h, h]
      simp [setA, lookupA]
    · rw [if_neg h]
      show (if i = j then some b else lookupA [] j) = lookupA [] j
      rw [if_neg (fun hh => h hh.symm)]
  | cons p rest ih =>
    intro i b j
    obtain ⟨k, c⟩ := p
    rw [setA]
    by_cases hk : k = i
    · rw [if_pos hk]
      by_cases hj : j = i
      · rw [if_pos hj]
        show (if i = j then some b else lookupA rest j) = some b
        rw [if_pos hj.symm]
      · rw [if_neg hj]
        show (if i = j then some b else lookupA rest j)
          = if k = j then some c else lookupA rest j
        rw [if_neg (fun hh => hj hh.symm), if_neg (by rw [hk]; exact fun hh => hj hh.symm)]
    · rw [if_neg hk]
      by_cases hkj : k = j
      · show (if k = j then some c else lookupA (setA rest i b) j)
          = if j = i then some b else if k = j then some c else lookupA rest j
        rw [if_pos hkj, if_pos hkj, if_neg (by rw [← hkj]; exact hk)]
      · show (if k = j then some c else lookupA (setA rest i b) j)
          = if j = i then some b else if k = j then some c else lookupA rest j
        rw [if_neg hkj, ih i b j]
        by_cases hj : j = i
        · rw [if_pos hj, if_pos hj]
        · rw [if_neg hj, if_neg hj, if_neg hkj]

theorem setA_id {β : Type} : ∀ (l : List (String × β)) (i : String) (b : β),
    lookupA l i = some b → setA l i b = l := by
  intro l
  induction l with
  | nil =>
    intro i b h
    simp [lookupA] at h
  | cons p rest ih =>
    intro i b h
    obtain ⟨k, c⟩ := p
    rw [lookupA] at h
    by_cases hk : k = i
    · rw [if_pos hk] at h
      injection h with h
      rw [setA, if_pos hk, hk, h]
    · rw [if_neg hk] at h
      rw [setA, if_neg hk, ih i b h]

theorem lookupE_setE : ∀ (l : List (String × String × String)) (u v r x y : String),
    lookupE (setE l u v r) x y = if x = u ∧ y = v then some r else lookupE l x y := by
  intro l
  induction l with
  | nil =>
    intro u v r x y
    by_cases h : x = u ∧ y = v
    · rw [if_pos h, h.1, h.2]
      simp [setE, lookupE]
    · rw [if_neg h]
      show (if u = x ∧ v = y then some r else lookupE [] x y) = lookupE [] x y
      rw [if_neg (fun hh => h ⟨hh.1.symm, hh.2.symm⟩)]
  | cons p rest ih =>
    intro u v r x y
    obtain ⟨a, b, s⟩ := p
    rw [setE]
    by_cases hk : a = u ∧ b = v
    · rw [if_pos hk]
      by_cases hj : x = u ∧ y = v
      · rw [if_pos hj]
        show (if u = x ∧ v = y then some r else lookupE rest x y) = some r
        rw [if_pos ⟨hj.1.symm, hj.2.symm⟩]
      · rw [if_neg hj]
        show (if u = x ∧ v = y then some r else lookupE rest x y)
          = if a = x ∧ b = y then some s else lookupE rest x y
        rw [if_neg (fun hh => hj ⟨hh.1.symm, hh.2.symm⟩),
          if_neg (by rw [hk.1, hk.2]; exact fun hh => hj ⟨hh.1.symm, hh.2.symm⟩)]
    · rw [if_neg hk]
      show (if a = x ∧ b = y then some s else lookupE (setE rest u v r) x y)
        = if x = u ∧ y = v then some r else if a = x ∧ b = y then some s else lookupE rest x y
      by_cases haxy : a = x ∧ b = y
      · rw [if_pos haxy, if_neg (fun hh => hk ⟨haxy.1.trans hh.1, haxy.2.trans hh.2⟩),
          if_pos haxy]
      · rw [if_neg haxy, ih u v r x y]
        by_cases hj : x = u ∧ y = v
        · rw [if_pos hj, if_pos hj]
        · rw [if_neg hj, if_neg hj, if_neg haxy]

theorem setE_id : ∀ (l : List (String × String × String)) (u v r : String),
    lookupE l u v = some r → setE l u v r = l := by
  intro l
  induction l with
  | nil =>
    intro u v r h
    simp [lookupE] at h
  | cons p rest ih =>
    intro u v r h
    obtain ⟨a, b, s⟩ := p
    rw [lookupE] at h
    by_cases hk : a = u ∧ b = v
    · rw [if_pos hk] at h
      injection h with h
      rw [setE, if_pos hk, hk.1, hk.2, h]
    · rw [if_neg hk] at h
      rw [setE, if_neg hk, ih u v r h]

theorem lookupA_append {β : Type} : ∀ (l1 l2 : List (String × β)) (j : String),
    lookupA (l1 ++ l2) j
      = match lookupA l1 j with
        | some a => some a
        | none => lookupA l2 j := by
  intro l1
  induction l1 with
  | nil => intro l2 j; rfl
  | cons p rest ih =>
    intro l2 j
    obtain ⟨k, c⟩ := p
    show (if k = j then some c else lookupA (rest ++ l2) j) = _
    by_cases hk : k = j
    · rw [if_pos hk]
      show _ = (match if k = j then some c else lookupA rest j with
        | some a => some a
        | none => lookupA l2 j)
      rw [if_pos hk]
    · rw [if_neg hk, ih l2 j]
      show _ = (match if k = j then some c else lookupA rest j with
        | some a => some a
        | none => lookupA l2 j)
      rw [if_neg hk]

theorem edges_addNode (g : Graph) (i : String) (a : NodeAttrs) :
    (addNode g i a).edges = g.edges := rfl

theorem lookupA_addNode (g : Graph) (i : String) (a : NodeAttrs) (j : String) :
    lookupA (addNode g i a).nodes j = if j = i then some a else lookupA g.nodes j :=
  lookupA_setA g.nodes i a j

theorem ensureNode_edges (g : Graph) (i : String) : (ensureNode g i).edges = g.edges := by
  unfold ensureNode
  split <;> rfl

theorem addEdge_nodes (g : Graph) (u v r : String) :
    (addEdge g u v r).nodes = (ensureNode (ensureNode g u) v).nodes := rfl

theorem edges_addEdge (g : Graph) (u v r : String) :
    (addEdge g u v r).edges = setE g.edges u v r := by
  show setE (ensureNode (ensureNode g u) v).edges u v r = _
  rw [ensureNode_edges, ensureNode_edges]

theorem lookupE_addEdge (g : Graph) (u v r x y : String) :
    lookupE (addEdge g u v r).edges x y
      = if x = u ∧ y = v then some r else lookupE g.edges x y := by
  rw [edges_addEdge, lookupE_setE]

theorem lookupA_ensureNode_pres {g : Graph} {j : String} {a : NodeAttrs} (i : String)
    (h : lookupA g.nodes j = some a) : lookupA (ensureNode g i).nodes j = some a := by
  unfold ensureNode
  split
  · exact h
  · show lookupA (g.nodes ++ [(i, {})]) j = some a
    rw [lookupA_append, h]

theorem lookupA_addEdge_pres {g : Graph} {j : String} {a : NodeAttrs} (u v r : String)
    (h : lookupA g.nodes j = some a) : lookupA (addEdge g u v r).nodes j = some a := by
  show lookupA (ensureNode (ensureNode g u) v).nodes j = some a
  exact lookupA_ensureNode_pres v (lookupA_ensureNode_pres u h)

theorem hasNodeB_ensureNode_self (g : Graph) (i : String) :
    hasNodeB (ensureNode g i) i = true := by
  unfold ensureNode
  split
  · assumption
  · show (lookupA (g.nodes ++ [(i, {})]) i).isSome = true
    rw [lookupA_append]
    cases hl : lookupA g.nodes i with
    | some a => rfl
    | none =>
      show (lookupA [(i, ({} : NodeAttrs))] i).isSome = true
      simp [lookupA]

theorem hasNodeB_of_lookupA {g : Graph} {j : String} {a : NodeAttrs}
    (h : lookupA g.nodes j = some a) : hasNodeB g j = true := by
  unfold hasNodeB
  rw [h]
  rfl

theorem hasNodeB_addEdge_left (g : Graph) (u v r : String) :
    hasNodeB (addEdge g u v r) u = true := by
  have h1 : hasNodeB (ensureNode g u) u = true := hasNodeB_ensureNode_self g u
  unfold hasNodeB at h1 ⊢
  rw [addEdge_nodes]
  obtain ⟨a, ha⟩ := Option.isSome_iff_exists.mp h1
  rw [lookupA_ensureNode_pres v ha]
  rfl

theorem hasNodeB_addEdge_right (g : Graph) (u v r : String) :
    hasNodeB (addEdge g u v r) v = true := by
  have h1 : hasNodeB (ensureNode (ensureNode g u) v) v = true :=
    hasNodeB_ensureNode_self (ensureNode g u) v
  unfold hasNodeB at h1 ⊢
  rw [addEdge_nodes]
  exact h1

theorem addNode_id {g : Graph} {i : String} {a : NodeAttrs}
    (h : lookupA g.nodes i = some a) : addNode g i a = g := by
  show { g with nodes := setA g.nodes i a } = g
  rw [setA_id g.nodes i a h]

theorem addEdge_id {g : Graph} {u v r : String}
    (hu : hasNodeB g u = true) (hv : hasNodeB g v = true)
    (he : lookupE g.edges u v = some r) : addEdge g u v r = g := by
  unfold addEdge
  rw [show ensureNode g u = g from by unfold ensureNode; rw [if_pos hu],
    show ensureNode g v = g from by unfold ensureNode; rw [if_pos hv]]
  show { g with edges := setE g.edges u v r } = g
  rw [setE_id g.edges u v r he]

/-! ### Node-id disequalities: `project_<id>` never collides with the demo
component or vulnerability ids (their first characters differ). -/

theorem projectNodeId_data (pid : Int) :
    (projectNodeId pid).data
      = 'p' :: 'r' :: 'o' :: 'j' :: 'e' :: 'c' :: 't' :: '_' :: (toString pid).data := by
  unfold projectNodeId
  rw [String.data_append]
  rfl

theorem projectNodeId_ne {pid : Int} {t : String}
    (h : t.data.head? ≠ some 'p') : projectNodeId pid ≠ t := by
  intro he
  apply h
  rw [← he, projectNodeId_data]
  rfl

theorem projectNodeId_eq_lit {pid : Int} {t : String}
    (h : t.data.head? ≠ some 'p') : (projectNodeId pid = t) = False :=
  eq_false (projectNodeId_ne h)

theorem lit_eq_projectNodeId {pid : Int} {t : String}
    (h : t.data.head? ≠ some 'p') : (t = projectNodeId pid) = False :=
  eq_false (fun he => projectNodeId_ne h he.symm)

theorem vulnNodeId_inj {a b : String} (h : vulnNodeId a = vulnNodeId b) : a = b := by
  unfold vulnNodeId at h
  have h2 := congrArg String.data h
  rw [String.data_append, String.data_append] at h2
  have h3 : a.data = b.data := by
    have : ∀ (x y : List Char), "vuln_".data ++ x = "vuln_".data ++ y → x = y :=
      fun x y hh => List.append_cancel_left hh
    exact this _ _ h2
  cases a
  cases b
  simp at h3
  rw [h3]

/-! ## Idempotence of `generate_sbom` (claim C4) -/

theorem foldl_self {α : Type} (f : Graph → α → Graph) :
    ∀ (l : List α) (g : Graph), (∀ a ∈ l, f g a = g) → l.foldl f g = g := by
  intro l
  induction l with
  | nil => intro g _; rfl
  | cons a rest ih =>
    intro g h
    rw [List.foldl_cons, h a (List.mem_cons_self a rest)]
    exact ih g (fun b hb => h b (List.mem_cons_of_mem a hb))

theorem addVulnerability_id {g : Graph} {nid vid : String}
    (hn : hasNodeB g nid = true)
    (hv : hasNodeB g (vulnNodeId vid) = true)
    (he : lookupE g.edges nid (vulnNodeId vid) = some "AFFECTED_BY") :
    addVulnerability g nid vid = g := by
  simp only [addVulnerability]
  rw [if_pos hv]
  exact addEdge_id hn hv he

theorem addComponent_id {g : Graph} {pid : Int} {c : DemoComponent}
    (hp : hasNodeB g (projectNodeId pid) = true)
    (hc : lookupA g.nodes (compNodeId c) = some (compAttrs c))
    (he : lookupE g.edges (projectNodeId pid) (compNodeId c) = some "DEPENDS_ON")
    (hv : ∀ vid ∈ c.vulnerabilities,
      hasNodeB g (vulnNodeId vid) = true ∧
      lookupE g.edges (compNodeId c) (vulnNodeId vid) = some "AFFECTED_BY") :
    addComponent g pid c = g := by
  simp only [addComponent]
  rw [addNode_id hc, addEdge_id hp (hasNodeB_of_lookupA hc) he]
  exact foldl_self _ c.vulnerabilities g
    (fun vid hvid =>
      addVulnerability_id (hasNodeB_of_lookupA hc) (hv vid hvid).1 (hv vid hvid).2)

theorem sbomReady_fixed {g : Graph} {pid : Int} {url : String}
    (h : SbomReady g pid url) : generate_sbom g pid url = g := by
  obtain ⟨hp, hcs⟩ := h
  simp only [generate_sbom]
  rw [addNode_id hp]
  exact foldl_self _ demoComponents g
    (fun c hc =>
      addComponent_id (hasNodeB_of_lookupA hp) (hcs c hc).1 (hcs c hc).2.1 (hcs c hc).2.2)

theorem lookupA_addVulnerability_pres {g : Graph} {j : String} {a : NodeAttrs} (nid vid : String)
    (h : lookupA g.nodes j = some a) :
    lookupA (addVulnerability g nid vid).nodes j = some a := by
  simp only [addVulnerability]
  apply lookupA_addEdge_pres
  split
  · exact h
  · rename_i hmiss
    rw [lookupA_addNode]
    by_cases hj : j = vulnNodeId vid
    · exact absurd (hasNodeB_of_lookupA (hj ▸ h)) (by simpa using hmiss)
    · rw [if_neg hj]
      exact h

theorem lookupE_addVulnerability_pres {g : Graph} {x y s : String} (nid vid : String)
    (hne : ¬(x = nid ∧ y = vulnNodeId vid)) (h : lookupE g.edges x y = some s) :
    lookupE (addVulnerability g nid vid).edges x y = some s := by
  simp only [addVulnerability]
  rw [lookupE_addEdge, if_neg hne]
  split
  · exact h
  · exact h

theorem lookupA_vulnFold_pres (nid : String) :
    ∀ (vids : List String) (g : Graph) {j : String} {a : NodeAttrs},
    lookupA g.nodes j = some a →
    lookupA ((vids.foldl (fun h v => addVulnerability h nid v) g)).nodes j = some a := by
  intro vids
  induction vids with
  | nil => intro g j a h; exact h
  | cons v rest ih =>
    intro g j a h
    exact ih _ (lookupA_addVulnerability_pres nid v h)

theorem lookupE_vulnFold_pres (nid : String) :
    ∀ (vids : List String) (g : Graph) {x y s : String},
    (∀ v ∈ vids, ¬(x = nid ∧ y = vulnNodeId v)) →
    lookupE g.edges x y = some s →
    lookupE ((vids.foldl (fun h v => addVulnerability h nid v) g)).edges x y = some s := by
  intro vids
  induction vids with
  | nil => intro g x y s _ h; exact h
  | cons v rest ih =>
    intro g x y s hne h
    exact ih _ (fun v' hv' => hne v' (List.mem_cons_of_mem v hv'))
      (lookupE_addVulnerability_pres nid v (hne v (List.mem_cons_self v rest)) h)

theorem hasNodeB_addVulnerability_self (g : Graph) (nid vid : String) :
    hasNodeB (addVulnerability g nid vid) (vulnNodeId vid) = true := by
  simp only [addVulnerability]
  split
  · rename_i h
    obtain ⟨a, ha⟩ := Option.isSome_iff_exists.mp h
    exact hasNodeB_of_lookupA (lookupA_addEdge_pres _ _ _ ha)
  · have hself : lookupA (addNode g (vulnNodeId vid) (vulnAttrs vid)).nodes (vulnNodeId vid)
        = some (vulnAttrs vid) := by
      rw [lookupA_addNode, if_pos rfl]
    exact hasNodeB_of_lookupA (lookupA_addEdge_pres _ _ _ hself)

theorem edge_addVulnerability_self (g : Graph) (nid vid : String) :
    lookupE (addVulnerability g nid vid).edges nid (vulnNodeId vid) = some "AFFECTED_BY" := by
  simp only [addVulnerability]
  split <;> rw [lookupE_addEdge, if_pos ⟨rfl, rfl⟩]

theorem vulnFold_estab (nid : String) :
    ∀ (vids : List String) (g : Graph) (vid : String), vid ∈ vids →
    hasNodeB (vids.foldl (fun h v => addVulnerability h nid v) g) (vulnNodeId vid) = true ∧
    lookupE ((vids.foldl (fun h v => addVulnerability h nid v) g)).edges nid (vulnNodeId vid)
      = some "AFFECTED_BY" := by
  intro vids
  induction vids with
  | nil => intro g vid h; cases h
  | cons v rest ih =>
    intro g vid hmem
    by_cases hr : vid ∈ rest
    · exact ih (addVulnerability g nid v) vid hr
    · have hv : vid = v := by
        rcases List.mem_cons.mp hmem with h | h
        · exact h
        · exact absurd h hr
      rw [hv] at hr ⊢
      rw [List.foldl_cons]
      constructor
      · obtain ⟨a, ha⟩ :=
          Option.isSome_iff_exists.mp (hasNodeB_addVulnerability_self g nid v)
        exact hasNodeB_of_lookupA (lookupA_vulnFold_pres nid rest _ ha)
      · apply lookupE_vulnFold_pres nid rest _ _ (edge_addVulnerability_self g nid v)
        intro v' hv' hcol
        exact hr (vulnNodeId_inj hcol.2 ▸ hv')

theorem lookupA_addComponent_self (g : Graph) (pid : Int) (c : DemoComponent) :
    lookupA (addComponent g pid c).nodes (compNodeId c) = some (compAttrs c) := by
  simp only [addComponent]
  apply lookupA_vulnFold_pres
  apply lookupA_addEdge_pres
  rw [lookupA_addNode, if_pos rfl]

theorem depends_addComponent_self (g : Graph) (pid : Int) (c : DemoComponent)
    (hpc : projectNodeId pid ≠ compNodeId c) :
    lookupE (addComponent g pid c).edges (projectNodeId pid) (compNodeId c)
      = some "DEPENDS_ON" := by
  simp only [addComponent]
  apply lookupE_vulnFold_pres _ _ _ (fun v _ hcol => hpc hcol.1)
  rw [lookupE_addEdge, if_pos ⟨rfl, rfl⟩]

theorem vuln_addComponent_self (g : Graph) (pid : Int) (c : DemoComponent) :
    ∀ vid ∈ c.vulnerabilities,
      hasNodeB (addComponent g pid c) (vulnNodeId vid) = true ∧
      lookupE (addComponent g pid c).edges (compNodeId c) (vulnNodeId vid)
        = some "AFFECTED_BY" := by
  intro vid hvid
  simp only [addComponent]
  exact vulnFold_estab (compNodeId c) c.vulnerabilities _ vid hvid

theorem lookupA_addComponent_pres {g : Graph} {j : String} {a : NodeAttrs}
    (pid : Int) (c : DemoComponent) (hj : j ≠ compNodeId c)
    (h : lookupA g.nodes j = some a) :
    lookupA (addComponent g pid c).nodes j = some a := by
  simp only [addComponent]
  apply lookupA_vulnFold_pres
  apply lookupA_addEdge_pres
  rw [lookupA_addNode, if_neg hj]
  exact h

theorem lookupE_addComponent_pres {g : Graph} {x y s : String}
    (pid : Int) (c : DemoComponent)
    (h1 : ¬(x = projectNodeId pid ∧ y = compNodeId c))
    (h2 : ∀ vid ∈ c.vulnerabilities, ¬(x = compNodeId c ∧ y = vulnNodeId vid))
    (h : lookupE g.edges x y = some s) :
    lookupE (addComponent g pid c).edges x y = some s := by
  simp only [addComponent]
  apply lookupE_vulnFold_pres _ _ _ h2
  rw [lookupE_addEdge, if_neg h1]
  exact h

theorem lookupA_compFold_pres (pid : Int) :
    ∀ (cs : List DemoComponent) (g : Graph) {j : String} {a : NodeAttrs},
    (∀ c ∈ cs, j ≠ compNodeId c) →
    lookupA g.nodes j = some a →
    lookupA ((cs.foldl (fun h c => addComponent h pid c) g)).nodes j = some a := by
  intro cs
  induction cs with
  | nil => intro g j a _ h; exact h
  | cons c rest ih =>
    intro g j a hne h
    exact ih _ (fun c' hc' => hne c' (List.mem_cons_of_mem c hc'))
      (lookupA_addComponent_pres pid c (hne c (List.mem_cons_self c rest)) h)

theorem lookupE_compFold_pres (pid : Int) :
    ∀ (cs : List DemoComponent) (g : Graph) {x y s : String},
    (∀ c ∈ cs, ¬(x = projectNodeId pid ∧ y = compNodeId c)) →
    (∀ c ∈ cs, ∀ vid ∈ c.vulnerabilities, ¬(x = compNodeId c ∧ y = vulnNodeId vid)) →
    lookupE g.edges x y = some s →
    lookupE ((cs.foldl (fun h c => addComponent h pid c) g)).edges x y = some s := by
  intro cs
  induction cs with
  | nil => intro g x y s _ _ h; exact h
  | cons c rest ih =>
    intro g x y s hne1 hne2 h
    exact ih _ (fun c' hc' => hne1 c' (List.mem_cons_of_mem c hc'))
      (fun c' hc' => hne2 c' (List.mem_cons_of_mem c hc'))
      (lookupE_addComponent_pres pid c (hne1 c (List.mem_cons_self c rest))
        (hne2 c (List.mem_cons_self c rest)) h)

theorem compFold_estab (pid : Int) :
    ∀ (cs : List DemoComponent) (g : Graph),
    (∀ c ∈ cs, projectNodeId pid ≠ compNodeId c) →
    (∀ c ∈ cs, ∀ vid ∈ c.vulnerabilities, ∀ c' ∈ cs, vulnNodeId vid ≠ compNodeId c') →
    (cs.map compNodeId).Nodup →
    ∀ c ∈ cs,
      lookupA ((cs.foldl (fun h c0 => addComponent h pid c0) g)).nodes (compNodeId c)
        = some (compAttrs c) ∧
      lookupE ((cs.foldl (fun h c0 => addComponent h pid c0) g)).edges
        (projectNodeId pid) (compNodeId c) = some "DEPENDS_ON" ∧
      ∀ vid ∈ c.vulnerabilities,
        hasNodeB (cs.foldl (fun h c0 => addComponent h pid c0) g) (vulnNodeId vid) = true ∧
        lookupE ((cs.foldl (fun h c0 => addComponent h pid c0) g)).edges
          (compNodeId c) (vulnNodeId vid) = some "AFFECTED_BY" := by
  intro cs
  induction cs with
  | nil => intro g _ _ _ c hc; cases hc
  | cons c0 rest ih =>
    intro g hproj hvc hnodup c hmem
    have hproj' : ∀ c' ∈ rest, projectNodeId pid ≠ compNodeId c' :=
      fun c' hc' => hproj c' (List.mem_cons_of_mem c0 hc')
    have hvc' : ∀ c ∈ rest, ∀ vid ∈ c.vulnerabilities, ∀ c' ∈ rest,
        vulnNodeId vid ≠ compNodeId c' :=
      fun c hc vid hvid c' hc' =>
        hvc c (List.mem_cons_of_mem c0 hc) vid hvid c' (List.mem_cons_of_mem c0 hc')
    have hnodup' : (rest.map compNodeId).Nodup := (List.nodup_cons.mp hnodup).2
    have hhead : compNodeId c0 ∉ rest.map compNodeId := (List.nodup_cons.mp hnodup).1
    have hne0 : ∀ c' ∈ rest, compNodeId c0 ≠ compNodeId c' := by
      intro c' hc' he
      exact hhead (he ▸ List.mem_map_of_mem compNodeId hc')
    by_cases hr : c ∈ rest
    · exact ih (addComponent g pid c0) hproj' hvc' hnodup' c hr
    · have hc0 : c = c0 := by
        rcases List.mem_cons.mp hmem with h | h
        · exact h
        · exact absurd h hr
      rw [hc0]
      rw [List.foldl_cons]
      refine ⟨?na, ?ne, ?nv⟩
      case na =>
        exact lookupA_compFold_pres pid rest _ hne0
          (lookupA_addComponent_self g pid c0)
      case ne =>
        apply lookupE_compFold_pres pid rest _
          (fun c' hc' hcol => hne0 c' hc' hcol.2)
          (fun c' hc' vid _ hcol => hproj' c' hc' hcol.1)
        exact depends_addComponent_self g pid c0 (hproj c0 (List.mem_cons_self c0 rest))
      case nv =>
        intro vid hvid
        have hbase := vuln_addComponent_self g pid c0 vid hvid
        have hvr : ∀ c' ∈ rest, vulnNodeId vid ≠ compNodeId c' :=
          fun c' hc' =>
            hvc c0 (List.mem_cons_self c0 rest) vid hvid c' (List.mem_cons_of_mem c0 hc')
        constructor
        · obtain ⟨a, ha⟩ := Option.isSome_iff_exists.mp hbase.1
          exact hasNodeB_of_lookupA (lookupA_compFold_pres pid rest _ hvr ha)
        · exact lookupE_compFold_pres pid rest _
            (fun c' hc' hcol => hproj c0 (List.mem_cons_self c0 rest) hcol.1.symm)
            (fun c' hc' vid' _ hcol => hne0 c' hc' hcol.1) hbase.2

/-- Re-running the very same `generate_sbom` call leaves all its facts
in place. -/
theorem sbomReady_after (g : Graph) (pid : Int) (url : String) :
    SbomReady (generate_sbom g pid url) pid url := by
  have hproj : ∀ c ∈ demoComponents, projectNodeId pid ≠ compNodeId c := by
    intro c hc
    simp only [demoComponents, List.mem_cons, List.not_mem_nil, or_false] at hc
    rcases hc with rfl | rfl | rfl | rfl | rfl <;>
      exact projectNodeId_ne (by decide)
  have hvc : ∀ c ∈ demoComponents, ∀ vid ∈ c.vulnerabilities, ∀ c' ∈ demoComponents,
      vulnNodeId vid ≠ compNodeId c' := by decide
  have hnodup : (demoComponents.map compNodeId).Nodup := by decide
  constructor
  · simp only [generate_sbom]
    apply lookupA_compFold_pres pid demoComponents _ hproj
    rw [lookupA_addNode, if_pos rfl]
  · intro c hc
    simp only [generate_sbom]
    exact compFold_estab pid demoComponents _ hproj hvc hnodup c hc

/-- C4: re-running `generate_sbom` with the same `project_id` and
`repo_url` leaves the graph exactly as one run left it — the same node
list and edge list, with no duplicate nodes or edges: the node upsert
replaces in place, `add_edge` overwrites the same edge, and existing
vulnerability nodes are skipped. -/
theorem claim_C4 (g : Graph) (project_id : Int) (repo_url : String) :
    generate_sbom (generate_sbom g project_id repo_url) project_id repo_url
      = generate_sbom g project_id repo_url :=
  sbomReady_fixed (sbomReady_after g project_id repo_url)

/-- C10: `query_reachable_vulnerabilities` never reads its
`vulnerable_component` parameter, so its result is identical for any two
values of that argument, on every graph state and project id. -/
theorem claim_C10 (g : Graph) (project_id : Int) (vc1 vc2 : String) :
    query_reachable_vulnerabilities g project_id vc1
      = query_reachable_vulnerabilities g project_id vc2 := rfl

/-! ## `get_graph_data` on a missing project (claim C8) -/

/-- C8 as literally stated names a `NotFound` error; the exception that
actually escapes is networkx's `NetworkXError` (raised by
`nx.descendants` via `G.neighbors` on the absent node), not
`nx.NodeNotFound` — which, had it been raised, the function's
`except (nx.NodeNotFound, KeyError): pass` would have swallowed,
returning an empty result instead of failing. -/
theorem claim_C8_counterexample :
    get_graph_data emptyGraph 1 = Except.error PyExc.networkXError ∧
    PyExc.networkXError ≠ PyExc.nodeNotFound := by
  refine ⟨rfl, ?ne⟩
  intro h
  exact absurd h (by decide)

/-- C8: when the project node is absent, `get_graph_data` fails by
raising rather than returning a result: `nx.descendants` raises
`NetworkXError` ("The node project_<id> is not in the digraph."), which
the `except (nx.NodeNotFound, KeyError)` clause does not catch, so the
exception propagates to the caller. -/
theorem claim_C8 (g : Graph) (project_id : Int)
    (h : hasNodeB g (projectNodeId project_id) = false) :
    get_graph_data g project_id = Except.error PyExc.networkXError := by
  simp only [get_graph_data]
  rw [h]
  rfl

theorem claim_C8_witness :
    hasNodeB emptyGraph (projectNodeId 7) = false ∧
    get_graph_data emptyGraph 7 = Except.error PyExc.networkXError :=
  ⟨rfl, claim_C8 emptyGraph 7 rfl⟩

/-! ## Persistence is not atomic (claim C5) -/

theorem string_empty_append (s : String) : "" ++ s = s := by
  cases s
  rfl

theorem pickleDump_ne_empty (g : Graph) : pickleDump g ≠ "" := by
  intro h
  have h2 := congrArg String.data h
  rw [pickleDump, String.data_append, String.data_append, String.data_append] at h2
  have h3 : "P".data = ['P'] := rfl
  rw [h3] at h2
  simp at h2

/-- C5 as stated is false: `_save_graph` opens the snapshot file with
`open(self.graph_file, 'wb')`, truncating it in place; a reader at the
interruption point right after the truncating open observes an empty
file, which is neither the complete previous snapshot nor the complete
new one (both are nonempty pickle streams). -/
theorem claim_C5_counterexample :
    observeSnapshot emptyGraph emptyGraph 1 = some "" ∧
    some "" ≠ some (pickleDump emptyGraph) := by
  refine ⟨rfl, ?ne⟩
  intro h
  exact pickleDump_ne_empty emptyGraph (Option.some_injective _ h).symm

/-- C5, amended: the save trace is truncate-write-close on the snapshot
file itself — it contains no rename of a temporary file.  Before the
save the reader sees the complete old snapshot and after all three
events the complete new one, but interrupting right after the truncating
open exposes an empty file, distinct from both (pickle streams are never
empty). -/
theorem claim_C5 (gOld gNew : Graph) :
    (∀ src dst, FsEvent.renameInto src dst ∉ save_graph_trace gNew) ∧
    observeSnapshot gOld gNew 0 = some (pickleDump gOld) ∧
    observeSnapshot gOld gNew 1 = some "" ∧
    pickleDump gOld ≠ "" ∧
    pickleDump gNew ≠ "" ∧
    observeSnapshot gOld gNew 3 = some (pickleDump gNew) := by
  refine ⟨?nr, rfl, rfl, pickleDump_ne_empty gOld, pickleDump_ne_empty gNew, ?fin⟩
  case nr =>
    intro src dst hmem
    simp only [save_graph_trace, List.mem_cons, List.not_mem_nil, or_false] at hmem
    rcases hmem with h | h | h <;> exact FsEvent.noConfusion h
  case fin =>
    have hobs : observeSnapshot gOld gNew 3 = some ("" ++ pickleDump gNew) := rfl
    rw [hobs, string_empty_append]

/-! ## `get_graph_data` output ordering (claim C9) -/

theorem nodesFor_map_id (g : Graph) :
    ∀ l : List String, (nodesFor g l).map D3Node.id = l := by
  intro l
  induction l with
  | nil => rfl
  | cons n ns ih =>
    simp only [nodesFor, List.map_cons, ih]
    rfl

/-- C9's sorting clause is false on the graph one `generate_sbom` call
builds: the node list of `get_graph_data` comes out in set-iteration
order over the descendants (modelled as BFS discovery order) with the
project node appended last, and that sequence is not sorted by node ID
(e.g. `requests_2.28.1` precedes `flask_2.3.0`, and the `vuln_*` ids
precede `project_1`); `strCmpL` is byte-lexicographic string comparison,
the order Python's `sorted` uses on `str`. -/
theorem claim_C9_counterexample :
    ¬ List.Pairwise (fun a b : String => strCmpL a.data b.data ≤ 0)
        (((get_graph_data (generate_sbom emptyGraph 1 "u") 1).toOption.getD
            { nodes := [], links := [] }).nodes.map D3Node.id) := by
  decide

/-- C9, amended: with the Python `set` iteration fixed (as within one
process run), `get_graph_data` is a pure function of the graph, so two
calls with no intervening ingestion return identical ordered node and
link lists; but the node ordering is the descendants-set iteration order
with the project node appended last — the code never sorts by node ID. -/
theorem claim_C9 (g : Graph) (pid : Int)
    (h : hasNodeB g (projectNodeId pid) = true) :
    get_graph_data g pid = get_graph_data g pid ∧
    ∃ d, get_graph_data g pid = Except.ok d ∧
      d.nodes.map D3Node.id
        = descendantsOrder g (projectNodeId pid) ++ [projectNodeId pid] := by
  refine ⟨rfl, ?ex⟩
  refine ⟨{ nodes := nodesFor g (descendantsOrder g (projectNodeId pid) ++ [projectNodeId pid]),
            links := linksFor g (descendantsOrder g (projectNodeId pid) ++ [projectNodeId pid]) },
          ?eq, ?ord⟩
  case eq =>
    simp only [get_graph_data]
    rw [if_pos h]
  case ord =>
    exact nodesFor_map_id g _

set_option maxRecDepth 4000 in
theorem claim_C9_witness :
    hasNodeB (generate_sbom emptyGraph 1 "u") (projectNodeId 1) = true ∧
    (get_graph_data (generate_sbom emptyGraph 1 "u") 1
        = get_graph_data (generate_sbom emptyGraph 1 "u") 1 ∧
      ∃ d, get_graph_data (generate_sbom emptyGraph 1 "u") 1 = Except.ok d ∧
        d.nodes.map D3Node.id
          = descendantsOrder (generate_sbom emptyGraph 1 "u") (projectNodeId 1)
            ++ [projectNodeId 1]) :=
  ⟨by decide, claim_C9 (generate_sbom emptyGraph 1 "u") 1 (by decide)⟩

/-! ## Reachability machinery (claims C1 and C2) -/

theorem mem_setA {β : Type} :
    ∀ (l : List (String × β)) (i : String) (b : β) (p : String × β),
    p ∈ setA l i b → p = (i, b) ∨ p ∈ l := by
  intro l
  induction l with
  | nil =>
    intro i b p hp
    simp only [setA] at hp
    rcases List.mem_cons.mp hp with h | h
    · exact Or.inl h
    · cases h
  | cons q rest ih =>
    intro i b p hp
    obtain ⟨k, c⟩ := q
    rw [setA] at hp
    by_cases hk : k = i
    · rw [if_pos hk] at hp
      rcases List.mem_cons.mp hp with h | h
      · exact Or.inl h
      · exact Or.inr (List.mem_cons_of_mem _ h)
    · rw [if_neg hk] at hp
      rcases List.mem_cons.mp hp with h | h
      · exact Or.inr (h ▸ List.mem_cons_self _ _)
      · rcases ih i b p h with h2 | h2
        · exact Or.inl h2
        · exact Or.inr (List.mem_cons_of_mem _ h2)

theorem keys_setA_sub {β : Type} :
    ∀ (l : List (String × β)) (i : String) (b : β) (x : String),
    x ∈ (setA l i b).map Prod.fst → x = i ∨ x ∈ l.map Prod.fst := by
  intro l i b x hx
  rcases List.mem_map.mp hx with ⟨p, hp, hfst⟩
  rcases mem_setA l i b p hp with h | h
  · exact Or.inl (by rw [← hfst, h])
  · exact Or.inr (hfst ▸ List.mem_map_of_mem Prod.fst h)

theorem nodup_setA {β : Type} :
    ∀ (l : List (String × β)) (i : String) (b : β),
    (l.map Prod.fst).Nodup → ((setA l i b).map Prod.fst).Nodup := by
  intro l
  induction l with
  | nil =>
    intro i b _
    simp [setA]
  | cons q rest ih =>
    intro i b hn
    obtain ⟨k, c⟩ := q
    rw [List.map_cons] at hn
    have hk1 : k ∉ rest.map Prod.fst := (List.nodup_cons.mp hn).1
    have hk2 : (rest.map Prod.fst).Nodup := (List.nodup_cons.mp hn).2
    rw [setA]
    by_cases hk : k = i
    · rw [if_pos hk, List.map_cons]
      exact List.nodup_cons.mpr ⟨hk ▸ hk1, hk2⟩
    · rw [if_neg hk, List.map_cons]
      refine List.nodup_cons.mpr ⟨?notin, ih i b hk2⟩
      intro hmem
      rcases keys_setA_sub rest i b k hmem with h | h
      · exact hk h
      · exact hk1 h

theorem mem_setE :
    ∀ (l : List (String × String × String)) (u v r : String) (e : String × String × String),
    e ∈ setE l u v r → e = (u, v, r) ∨ e ∈ l := by
  intro l
  induction l with
  | nil =>
    intro u v r e he
    simp only [setE] at he
    rcases List.mem_cons.mp he with h | h
    · exact Or.inl h
    · cases h
  | cons q rest ih =>
    intro u v r e he
    obtain ⟨a, b, s⟩ := q
    rw [setE] at he
    by_cases hk : a = u ∧ b = v
    · rw [if_pos hk] at he
      rcases List.mem_cons.mp he with h | h
      · exact Or.inl h
      · exact Or.inr (List.mem_cons_of_mem _ h)
    · rw [if_neg hk] at he
      rcases List.mem_cons.mp he with h | h
      · exact Or.inr (h ▸ List.mem_cons_self _ _)
      · rcases ih u v r e h with h2 | h2
        · exact Or.inl h2
        · exact Or.inr (List.mem_cons_of_mem _ h2)

theorem mem_of_lookupA {β : Type} :
    ∀ (l : List (String × β)) (j : String) (b : β),
    lookupA l j = some b → (j, b) ∈ l := by
  intro l
  induction l with
  | nil => intro j b h; simp [lookupA] at h
  | cons q rest ih =>
    intro j b h
    obtain ⟨k, c⟩ := q
    rw [lookupA] at h
    by_cases hk : k = j
    · rw [if_pos hk] at h
      injection h with h
      rw [← hk, ← h]
      exact List.mem_cons_self _ _
    · rw [if_neg hk] at h
      exact List.mem_cons_of_mem _ (ih j b h)

theorem lookupA_of_mem_nodup {β : Type} :
    ∀ (l : List (String × β)) (j : String) (b : β),
    (l.map Prod.fst).Nodup → (j, b) ∈ l → lookupA l j = some b := by
  intro l
  induction l with
  | nil => intro j b _ h; cases h
  | cons q rest ih =>
    intro j b hn hmem
    obtain ⟨k, c⟩ := q
    rw [List.map_cons] at hn
    rcases List.mem_cons.mp hmem with h | h
    · injection h with h1 h2
      rw [lookupA, if_pos h1.symm, h2]
    · rw [lookupA]
      by_cases hk : k = j
      · exfalso
        have : k ∈ rest.map Prod.fst := hk ▸ List.mem_map_of_mem Prod.fst h
        exact (List.nodup_cons.mp hn).1 this
      · rw [if_neg hk]
        exact ih j b (List.nodup_cons.mp hn).2 h

theorem ensureNode_of_has {g : Graph} {i : String} (h : hasNodeB g i = true) :
    ensureNode g i = g := by
  unfold ensureNode
  rw [if_pos h]

theorem hasNodeB_addNode_mono {g : Graph} {x : String} (i : String) (a : NodeAttrs)
    (h : hasNodeB g x = true) : hasNodeB (addNode g i a) x = true := by
  unfold hasNodeB at h ⊢
  rw [lookupA_addNode]
  by_cases hx : x = i
  · rw [if_pos hx]
    rfl
  · rw [if_neg hx]
    exact h

theorem hasNodeB_addEdge_mono {g : Graph} {x : String} (u v r : String)
    (h : hasNodeB g x = true) : hasNodeB (addEdge g u v r) x = true := by
  obtain ⟨a, ha⟩ := Option.isSome_iff_exists.mp h
  exact hasNodeB_of_lookupA (lookupA_addEdge_pres u v r ha)

theorem hasNodeB_addVulnerability_mono {g : Graph} {x : String} (nid vid : String)
    (h : hasNodeB g x = true) : hasNodeB (addVulnerability g nid vid) x = true := by
  obtain ⟨a, ha⟩ := Option.isSome_iff_exists.mp h
  exact hasNodeB_of_lookupA (lookupA_addVulnerability_pres nid vid ha)

theorem list_two_le {α : Type} :
    ∀ (l : List α) (a b : α), a ∈ l → b ∈ l → a ≠ b → 2 ≤ l.length := by
  intro l a b ha hb hne
  cases l with
  | nil => cases ha
  | cons x t =>
    cases t with
    | nil =>
      exfalso
      rcases List.mem_cons.mp ha with h1 | h1
      · rcases List.mem_cons.mp hb with h2 | h2
        · exact hne (h1.trans h2.symm)
        · cases h2
      · cases h1
    | cons y t2 =>
      simp [List.length_cons]

theorem vulnNodeId_data (vid : String) :
    (vulnNodeId vid).data = 'v' :: 'u' :: 'l' :: 'n' :: '_' :: vid.data := by
  unfold vulnNodeId
  rw [String.data_append]
  rfl

theorem vulnNodeId_ne {vid : String} {t : String}
    (h : t.data.head? ≠ some 'v') : vulnNodeId vid ≠ t := by
  intro he
  apply h
  rw [← he, vulnNodeId_data]
  rfl

theorem proj_ne_comp (pid : Int) : ∀ c ∈ demoComponents, projectNodeId pid ≠ compNodeId c := by
  intro c hc
  simp only [demoComponents, List.mem_cons, List.not_mem_nil, or_false] at hc
  rcases hc with rfl | rfl | rfl | rfl | rfl <;>
    exact projectNodeId_ne (by decide)

theorem vuln_ne_comp (vid : String) : ∀ c ∈ demoComponents, vulnNodeId vid ≠ compNodeId c := by
  intro c hc
  simp only [demoComponents, List.mem_cons, List.not_mem_nil, or_false] at hc
  rcases hc with rfl | rfl | rfl | rfl | rfl <;>
    exact vulnNodeId_ne (by decide)

theorem proj_ne_vuln (pid : Int) (vid : String) : projectNodeId pid ≠ vulnNodeId vid := by
  apply projectNodeId_ne
  rw [vulnNodeId_data]
  intro h
  rw [List.head?_cons] at h
  exact absurd (Option.some.inj h) (by decide)

theorem vuln_ne_proj (vid : String) (pid : Int) : vulnNodeId vid ≠ projectNodeId pid := by
  apply vulnNodeId_ne
  rw [projectNodeId_data]
  intro h
  rw [List.head?_cons] at h
  exact absurd (Option.some.inj h) (by decide)

theorem mem_succ_iff (g : Graph) (u v : String) :
    v ∈ successors g u ↔ ∃ r, (u, v, r) ∈ g.edges := by
  unfold successors
  constructor
  · intro h
    rcases List.mem_map.mp h with ⟨e, he, hv⟩
    have he2 := List.mem_filter.mp he
    refine ⟨e.2.2, ?mem⟩
    have hu : e.1 = u := by
      have := he2.2
      exact beq_iff_eq.mp this
    have : e = (u, v, e.2.2) := by
      obtain ⟨e1, e2, e3⟩ := e
      simp at hu hv ⊢
      exact ⟨hu, hv⟩
    exact this ▸ he2.1
  · intro ⟨r, hr⟩
    apply List.mem_map.mpr
    refine ⟨(u, v, r), List.mem_filter.mpr ⟨hr, ?f⟩, rfl⟩
    exact beq_iff_eq.mpr rfl

theorem mem_pred_iff (g : Graph) (u n : String) :
    u ∈ predecessors g n ↔ ∃ r, (u, n, r) ∈ g.edges := by
  unfold predecessors
  constructor
  · intro h
    rcases List.mem_map.mp h with ⟨e, he, hv⟩
    have he2 := List.mem_filter.mp he
    refine ⟨e.2.2, ?mem⟩
    have hn : e.2.1 = n := beq_iff_eq.mp he2.2
    have : e = (u, n, e.2.2) := by
      obtain ⟨e1, e2, e3⟩ := e
      simp at hn hv ⊢
      exact ⟨hv, hn⟩
    exact this ▸ he2.1
  · intro ⟨r, hr⟩
    apply List.mem_map.mpr
    refine ⟨(u, n, r), List.mem_filter.mpr ⟨hr, ?f⟩, rfl⟩
    exact beq_iff_eq.mpr rfl

theorem ginv_empty : GInv emptyGraph :=
  ⟨fun p hp => absurd hp (List.not_mem_nil p),
   fun e he => absurd he (List.not_mem_nil e),
   fun e he => absurd he (List.not_mem_nil e),
   List.nodup_nil⟩

theorem ginv_addNode {g : Graph} {i : String} {a : NodeAttrs}
    (h : GInv g) (hna : NodeIs (i, a)) : GInv (addNode g i a) := by
  obtain ⟨hn, he, hep, hnd⟩ := h
  refine ⟨?nodes, ?edges, ?endpoints, ?nodup⟩
  case nodes =>
    intro p hp
    rcases mem_setA g.nodes i a p hp with h2 | h2
    · exact h2 ▸ hna
    · exact hn p h2
  case edges =>
    intro e hee
    exact he e hee
  case endpoints =>
    intro e hee
    exact ⟨hasNodeB_addNode_mono i a (hep e hee).1, hasNodeB_addNode_mono i a (hep e hee).2⟩
  case nodup =>
    exact nodup_setA g.nodes i a hnd

theorem addEdge_of_has {g : Graph} {u v : String} (r : String)
    (hu : hasNodeB g u = true) (hv : hasNodeB g v = true) :
    addEdge g u v r = { g with edges := setE g.edges u v r } := by
  unfold addEdge
  rw [ensureNode_of_has hu, ensureNode_of_has hv]

theorem ginv_addEdge {g : Graph} {u v r : String}
    (h : GInv g) (hu : hasNodeB g u = true) (hv : hasNodeB g v = true)
    (hei : EdgeIs (u, v, r)) : GInv (addEdge g u v r) := by
  obtain ⟨hn, he, hep, hnd⟩ := h
  rw [addEdge_of_has r hu hv]
  refine ⟨hn, ?edges, ?endpoints, hnd⟩
  case edges =>
    intro e hee
    rcases mem_setE g.edges u v r e hee with h2 | h2
    · exact h2 ▸ hei
    · exact he e h2
  case endpoints =>
    intro e hee
    rcases mem_setE g.edges u v r e hee with h2 | h2
    · rw [h2]
      exact ⟨hu, hv⟩
    · exact hep e h2

theorem ginv_addVulnerability {g : Graph} {c : DemoComponent} {vid : String}
    (h : GInv g) (hc : c ∈ demoComponents) (hvid : vid ∈ c.vulnerabilities)
    (hcn : hasNodeB g (compNodeId c) = true) :
    GInv (addVulnerability g (compNodeId c) vid) := by
  simp only [addVulnerability]
  split
  · rename_i hhas
    exact ginv_addEdge h hcn hhas (Or.inr ⟨c, vid, hc, hvid, rfl, rfl, rfl⟩)
  · have h1 : GInv (addNode g (vulnNodeId vid) (vulnAttrs vid)) :=
      ginv_addNode h (Or.inr (Or.inr ⟨vid, c, hc, hvid, rfl, rfl⟩))
    have h2 : hasNodeB (addNode g (vulnNodeId vid) (vulnAttrs vid)) (vulnNodeId vid) = true := by
      apply hasNodeB_of_lookupA
      rw [lookupA_addNode, if_pos rfl]
    exact ginv_addEdge h1 (hasNodeB_addNode_mono _ _ hcn) h2
      (Or.inr ⟨c, vid, hc, hvid, rfl, rfl, rfl⟩)

theorem ginv_vulnFold {c : DemoComponent} (hc : c ∈ demoComponents) :
    ∀ (vids : List String) (g : Graph),
    (∀ v ∈ vids, v ∈ c.vulnerabilities) → GInv g → hasNodeB g (compNodeId c) = true →
    GInv (vids.foldl (fun h v => addVulnerability h (compNodeId c) v) g) := by
  intro vids
  induction vids with
  | nil => intro g _ hg _; exact hg
  | cons v rest ih =>
    intro g hsub hg hcn
    rw [List.foldl_cons]
    exact ih _ (fun v' hv' => hsub v' (List.mem_cons_of_mem v hv'))
      (ginv_addVulnerability hg hc (hsub v (List.mem_cons_self v rest)) hcn)
      (hasNodeB_addVulnerability_mono _ _ hcn)

theorem hasNodeB_vulnFold_mono (nid : String) :
    ∀ (vids : List String) (g : Graph) {x : String},
    hasNodeB g x = true →
    hasNodeB (vids.foldl (fun h v => addVulnerability h nid v) g) x = true := by
  intro vids g x h
  obtain ⟨a, ha⟩ := Option.isSome_iff_exists.mp h
  exact hasNodeB_of_lookupA (lookupA_vulnFold_pres nid vids g ha)

theorem ginv_addComponent {g : Graph} {pid : Int} {c : DemoComponent}
    (h : GInv g) (hc : c ∈ demoComponents)
    (hp : hasNodeB g (projectNodeId pid) = true) :
    GInv (addComponent g pid c) := by
  simp only [addComponent]
  have h1 : GInv (addNode g (compNodeId c) (compAttrs c)) :=
    ginv_addNode h (Or.inr (Or.inl ⟨c, hc, rfl, rfl⟩))
  have hcn1 : hasNodeB (addNode g (compNodeId c) (compAttrs c)) (compNodeId c) = true := by
    apply hasNodeB_of_lookupA
    rw [lookupA_addNode, if_pos rfl]
  have hp1 : hasNodeB (addNode g (compNodeId c) (compAttrs c)) (projectNodeId pid) = true :=
    hasNodeB_addNode_mono _ _ hp
  have h2 : GInv (addEdge (addNode g (compNodeId c) (compAttrs c))
      (projectNodeId pid) (compNodeId c) "DEPENDS_ON") :=
    ginv_addEdge h1 hp1 hcn1 (Or.inl ⟨pid, c, hc, rfl, rfl, rfl⟩)
  exact ginv_vulnFold hc c.vulnerabilities _ (fun v hv => hv) h2
    (hasNodeB_addEdge_mono _ _ _ hcn1)

theorem hasNodeB_addComponent_mono {g : Graph} {x : String} (pid : Int) (c : DemoComponent)
    (h : hasNodeB g x = true) : hasNodeB (addComponent g pid c) x = true := by
  simp only [addComponent]
  apply hasNodeB_vulnFold_mono
  apply hasNodeB_addEdge_mono
  exact hasNodeB_addNode_mono _ _ h

theorem ginv_compFold (pid : Int) :
    ∀ (cs : List DemoComponent) (g : Graph),
    (∀ c ∈ cs, c ∈ demoComponents) → GInv g →
    hasNodeB g (projectNodeId pid) = true →
    GInv (cs.foldl (fun h c => addComponent h pid c) g) := by
  intro cs
  induction cs with
  | nil => intro g _ hg _; exact hg
  | cons c rest ih =>
    intro g hsub hg hp
    rw [List.foldl_cons]
    exact ih _ (fun c' hc' => hsub c' (List.mem_cons_of_mem c hc'))
      (ginv_addComponent hg (hsub c (List.mem_cons_self c rest)) hp)
      (hasNodeB_addComponent_mono pid c hp)

theorem ginv_generate_sbom {g : Graph} (pid : Int) (url : String)
    (h : GInv g) : GInv (generate_sbom g pid url) := by
  simp only [generate_sbom]
  have h1 : GInv (addNode g (projectNodeId pid) (projAttrs url)) :=
    ginv_addNode h (Or.inl ⟨pid, url, rfl, rfl⟩)
  have hp1 : hasNodeB (addNode g (projectNodeId pid) (projAttrs url))
      (projectNodeId pid) = true := by
    apply hasNodeB_of_lookupA
    rw [lookupA_addNode, if_pos rfl]
  exact ginv_compFold pid demoComponents _ (fun c hc => hc) h1 hp1

theorem ginv_of_built {g : Graph} (h : Built g) : GInv g := by
  induction h with
  | empty => exact ginv_empty
  | step g0 pid url _ ih => exact ginv_generate_sbom pid url ih

theorem succ_pnode_shape {g : Graph} (hg : GInv g) (pid : Int) {v : String}
    (hv : v ∈ successors g (projectNodeId pid)) :
    ∃ c, c ∈ demoComponents ∧ v = compNodeId c := by
  rcases (mem_succ_iff g _ v).mp hv with ⟨r, hr⟩
  rcases hg.2.1 _ hr with hca | hca
  · obtain ⟨pid', c, hc, _, h2, _⟩ := hca
    exact ⟨c, hc, h2⟩
  · obtain ⟨c, vid, hc, _, h1, _, _⟩ := hca
    exact absurd h1 (proj_ne_comp pid c hc)

theorem succ_comp_shape {g : Graph} (hg : GInv g) {c : DemoComponent}
    (hc : c ∈ demoComponents) {v : String}
    (hv : v ∈ successors g (compNodeId c)) :
    ∃ c' vid, c' ∈ demoComponents ∧ vid ∈ c'.vulnerabilities ∧ v = vulnNodeId vid := by
  rcases (mem_succ_iff g _ v).mp hv with ⟨r, hr⟩
  rcases hg.2.1 _ hr with hca | hca
  · obtain ⟨pid', c', hc', h1, _, _⟩ := hca
    exact absurd h1.symm (proj_ne_comp pid' c hc)
  · obtain ⟨c', vid, hc', hvid, _, h2, _⟩ := hca
    exact ⟨c', vid, hc', hvid, h2⟩

theorem succ_vuln_nil {g : Graph} (hg : GInv g) (vid : String) :
    successors g (vulnNodeId vid) = [] := by
  apply List.eq_nil_iff_forall_not_mem.mpr
  intro v hv
  rcases (mem_succ_iff g _ v).mp hv with ⟨r, hr⟩
  rcases hg.2.1 _ hr with hca | hca
  · obtain ⟨pid', c, hc, h1, _, _⟩ := hca
    exact vuln_ne_proj vid pid' h1
  · obtain ⟨c, vid', hc, hv', h1, _, _⟩ := hca
    exact vuln_ne_comp vid c hc h1

theorem nodes_len_two {g : Graph} {x y : String}
    (hx : hasNodeB g x = true) (hy : hasNodeB g y = true) (hne : x ≠ y) :
    2 ≤ g.nodes.length := by
  obtain ⟨a, ha⟩ := Option.isSome_iff_exists.mp hx
  obtain ⟨b, hb⟩ := Option.isSome_iff_exists.mp hy
  have hxm : x ∈ g.nodes.map Prod.fst :=
    List.mem_map_of_mem Prod.fst (mem_of_lookupA _ _ _ ha)
  have hym : y ∈ g.nodes.map Prod.fst :=
    List.mem_map_of_mem Prod.fst (mem_of_lookupA _ _ _ hb)
  have h2 := list_two_le _ x y hxm hym hne
  rwa [List.length_map] at h2

theorem nodes_len_one {g : Graph} {x : String} (hx : hasNodeB g x = true) :
    1 ≤ g.nodes.length := by
  obtain ⟨a, ha⟩ := Option.isSome_iff_exists.mp hx
  have hm := mem_of_lookupA _ _ _ ha
  exact List.length_pos.mpr (List.ne_nil_of_mem hm)

theorem find_none_of_heads {t : String} :
    ∀ (fr : List (List String)), (∀ p ∈ fr, p.head? ≠ some t) →
    fr.find? (fun p => p.head? == some t) = none := by
  intro fr h
  apply List.find?_eq_none.mpr
  intro p hp hc
  exact h p hp (beq_iff_eq.mp hc)

theorem mem_expandAll {g : Graph} {visited : List String} :
    ∀ (fr : List (List String)) (q : List String),
    q ∈ expandAll g visited fr ↔ ∃ p ∈ fr, q ∈ expandPath g visited p := by
  intro fr
  induction fr with
  | nil =>
    intro q
    simp [expandAll]
  | cons p ps ih =>
    intro q
    rw [expandAll, List.mem_append]
    constructor
    · rintro (h | h)
      · exact ⟨p, List.mem_cons_self p ps, h⟩
      · rcases (ih q).mp h with ⟨p', hp', hq⟩
        exact ⟨p', List.mem_cons_of_mem p hp', hq⟩
    · rintro ⟨p', hp', hq⟩
      rcases List.mem_cons.mp hp' with h | h
      · exact Or.inl (h ▸ hq)
      · exact Or.inr ((ih q).mpr ⟨p', h, hq⟩)

theorem mem_expandPath {g : Graph} {visited : List String} (u : String) (rest : List String)
    (q : List String) :
    q ∈ expandPath g visited (u :: rest) ↔
      ∃ v, v ∈ successors g u ∧ v ∉ visited ∧ q = v :: u :: rest := by
  rw [expandPath, List.mem_filterMap]
  constructor
  · rintro ⟨v, hv, hf⟩
    by_cases hm : v ∈ visited
    · rw [if_pos hm] at hf
      cases hf
    · rw [if_neg hm] at hf
      injection hf with hf
      exact ⟨v, hv, hm, hf.symm⟩
  · rintro ⟨v, hv, hm, hq⟩
    exact ⟨v, hv, by rw [if_neg hm, hq]⟩

theorem bfsLoop_succ_none {g : Graph} {t : String} {fuel : Nat}
    {visited : List String} {fr : List (List String)}
    (h1 : fr.find? (fun p => p.head? == some t) = none)
    (h2 : expandAll g visited fr = []) :
    bfsLoop g t (Nat.succ fuel) visited fr = none := by
  simp only [bfsLoop, h1, h2, List.isEmpty_nil, if_true]

theorem bfsLoop_succ_step {g : Graph} {t : String} {fuel : Nat}
    {visited : List String} {fr : List (List String)}
    (h1 : fr.find? (fun p => p.head? == some t) = none)
    (h2 : expandAll g visited fr ≠ []) :
    bfsLoop g t (Nat.succ fuel) visited fr
      = bfsLoop g t fuel (visited ++ (expandAll g visited fr).filterMap List.head?)
          (expandAll g visited fr) := by
  simp only [bfsLoop, h1]
  rw [if_neg (fun hh => h2 (by simpa using hh))]

theorem bfsLoop_succ_found {g : Graph} {t : String} {fuel : Nat}
    {visited : List String} {fr : List (List String)} {p : List String}
    (h1 : fr.find? (fun q => q.head? == some t) = some p) :
    bfsLoop g t (Nat.succ fuel) visited fr = some p.reverse := by
  simp only [bfsLoop, h1]

theorem bfs_vuln_frontier {g : Graph} (hg : GInv g) {t : String}
    (fr : List (List String))
    (hheads : ∀ p ∈ fr, ∃ vid rest, p = vulnNodeId vid :: rest)
    (hne : ∀ p ∈ fr, p.head? ≠ some t) (fuel : Nat) (visited : List String) :
    bfsLoop g t (Nat.succ fuel) visited fr = none := by
  apply bfsLoop_succ_none (find_none_of_heads fr hne)
  apply List.eq_nil_iff_forall_not_mem.mpr
  intro q hq
  rcases (mem_expandAll fr q).mp hq with ⟨p, hp, hqp⟩
  rcases hheads p hp with ⟨vid, rest, rfl⟩
  rcases (mem_expandPath _ _ _).mp hqp with ⟨v, hv, _, _⟩
  rw [succ_vuln_nil hg vid] at hv
  cases hv

theorem bfs_comp_frontier {g : Graph} (hg : GInv g) {t : String}
    (ht : ∀ vid, vulnNodeId vid ≠ t)
    (fr : List (List String))
    (hheads : ∀ p ∈ fr, ∃ c rest, c ∈ demoComponents ∧ p = compNodeId c :: rest)
    (hne : ∀ p ∈ fr, p.head? ≠ some t) (fuel : Nat) (visited : List String) :
    bfsLoop g t (Nat.succ (Nat.succ fuel)) visited fr = none := by
  by_cases hnext : expandAll g visited fr = []
  · exact bfsLoop_succ_none (find_none_of_heads fr hne) hnext
  · rw [bfsLoop_succ_step (find_none_of_heads fr hne) hnext]
    apply bfs_vuln_frontier hg
    · intro q hq
      rcases (mem_expandAll fr q).mp hq with ⟨p, hp, hqp⟩
      rcases hheads p hp with ⟨c, rest, hc, rfl⟩
      rcases (mem_expandPath _ _ _).mp hqp with ⟨v, hv, _, rfl⟩
      rcases succ_comp_shape hg hc hv with ⟨c', vid, _, _, rfl⟩
      exact ⟨vid, _, rfl⟩
    · intro q hq
      rcases (mem_expandAll fr q).mp hq with ⟨p, hp, hqp⟩
      rcases hheads p hp with ⟨c, rest, hc, rfl⟩
      rcases (mem_expandPath _ _ _).mp hqp with ⟨v, hv, _, rfl⟩
      rcases succ_comp_shape hg hc hv with ⟨c', vid, _, _, rfl⟩
      rw [List.head?_cons]
      intro hcontra
      exact ht vid (Option.some.inj hcontra)

theorem sp_direct {g : Graph} (hg : GInv g) {pid : Int} {c : DemoComponent} {r0 : String}
    (hc : c ∈ demoComponents)
    (he : (projectNodeId pid, compNodeId c, r0) ∈ g.edges) :
    shortest_path g (projectNodeId pid) (compNodeId c)
      = Except.ok [projectNodeId pid, compNodeId c] := by
  have hp : hasNodeB g (projectNodeId pid) = true := (hg.2.2.1 _ he).1
  have hcn : hasNodeB g (compNodeId c) = true := (hg.2.2.1 _ he).2
  have hpc : projectNodeId pid ≠ compNodeId c := proj_ne_comp pid c hc
  have hlen : 1 ≤ g.nodes.length := nodes_len_one hp
  obtain ⟨m, hm⟩ : ∃ m, g.nodes.length + 1 = Nat.succ (Nat.succ m) :=
    ⟨g.nodes.length - 1, by omega⟩
  have hfind1 : ([[projectNodeId pid]].find?
      (fun p => p.head? == some (compNodeId c))) = none := by
    apply find_none_of_heads
    intro p hp2
    rcases List.mem_cons.mp hp2 with h | h
    · rw [h, List.head?_cons]
      intro hcontra
      exact hpc (Option.some.inj hcontra)
    · cases h
  have hmem : [compNodeId c, projectNodeId pid]
      ∈ expandAll g [projectNodeId pid] [[projectNodeId pid]] := by
    apply (mem_expandAll _ _).mpr
    refine ⟨[projectNodeId pid], List.mem_cons_self _ _, ?mem⟩
    apply (mem_expandPath _ _ _).mpr
    refine ⟨compNodeId c, (mem_succ_iff g _ _).mpr ⟨r0, he⟩, ?nvis, rfl⟩
    intro hvis
    rcases List.mem_cons.mp hvis with h | h
    · exact hpc h.symm
    · cases h
  have hstep : bfsLoop g (compNodeId c) (Nat.succ (Nat.succ m))
      [projectNodeId pid] [[projectNodeId pid]]
      = some [projectNodeId pid, compNodeId c] := by
    rw [bfsLoop_succ_step hfind1 (List.ne_nil_of_mem hmem)]
    cases hf : (expandAll g [projectNodeId pid] [[projectNodeId pid]]).find?
        (fun q => q.head? == some (compNodeId c)) with
    | none =>
      exfalso
      have := List.find?_eq_none.mp hf _ hmem
      apply this
      rw [List.head?_cons]
      exact beq_iff_eq.mpr rfl
    | some p0 =>
      have hp0mem : p0 ∈ expandAll g [projectNodeId pid] [[projectNodeId pid]] :=
        List.mem_of_find?_eq_some hf
      have hp0pred := List.find?_some hf
      rcases (mem_expandAll _ _).mp hp0mem with ⟨p1, hp1, hqp⟩
      rcases List.mem_cons.mp hp1 with h1 | h1
      swap
      · cases h1
      rw [h1] at hqp
      rcases (mem_expandPath _ _ _).mp hqp with ⟨v, hv, _, rfl⟩
      rw [List.head?_cons] at hp0pred
      have hvc : v = compNodeId c := beq_iff_eq.mp hp0pred |> Option.some.inj
      rw [bfsLoop_succ_found hf, hvc]
      rfl
  unfold shortest_path
  have htt : (true && true) = true := rfl
  rw [hp, hcn, if_pos htt, hm, hstep]

theorem sp_none {g : Graph} (hg : GInv g) {pid : Int} {c : DemoComponent}
    (hc : c ∈ demoComponents)
    (hp : hasNodeB g (projectNodeId pid) = true)
    (hcn : hasNodeB g (compNodeId c) = true)
    (hne : ∀ r, (projectNodeId pid, compNodeId c, r) ∉ g.edges) :
    shortest_path g (projectNodeId pid) (compNodeId c) = Except.error PyExc.noPath := by
  have hpc : projectNodeId pid ≠ compNodeId c := proj_ne_comp pid c hc
  have hlen : 2 ≤ g.nodes.length := nodes_len_two hp hcn hpc
  obtain ⟨m, hm⟩ : ∃ m, g.nodes.length + 1 = Nat.succ (Nat.succ (Nat.succ m)) :=
    ⟨g.nodes.length - 2, by omega⟩
  have hfind1 : ([[projectNodeId pid]].find?
      (fun p => p.head? == some (compNodeId c))) = none := by
    apply find_none_of_heads
    intro p hp2
    rcases List.mem_cons.mp hp2 with h | h
    · rw [h, List.head?_cons]
      intro hcontra
      exact hpc (Option.some.inj hcontra)
    · cases h
  have hstep : bfsLoop g (compNodeId c) (Nat.succ (Nat.succ (Nat.succ m)))
      [projectNodeId pid] [[projectNodeId pid]] = none := by
    by_cases hnext : expandAll g [projectNodeId pid] [[projectNodeId pid]] = []
    · exact bfsLoop_succ_none hfind1 hnext
    · rw [bfsLoop_succ_step hfind1 hnext]
      apply bfs_comp_frontier hg (fun vid => vuln_ne_comp vid c hc)
      · intro q hq
        rcases (mem_expandAll _ _).mp hq with ⟨p1, hp1, hqp⟩
        rcases List.mem_cons.mp hp1 with h1 | h1
        swap
        · cases h1
        rw [h1] at hqp
        rcases (mem_expandPath _ _ _).mp hqp with ⟨v, hv, _, rfl⟩
        rcases succ_pnode_shape hg pid hv with ⟨c0, hc0, rfl⟩
        exact ⟨c0, _, hc0, rfl⟩
      · intro q hq
        rcases (mem_expandAll _ _).mp hq with ⟨p1, hp1, hqp⟩
        rcases List.mem_cons.mp hp1 with h1 | h1
        swap
        · cases h1
        rw [h1] at hqp
        rcases (mem_expandPath _ _ _).mp hqp with ⟨v, hv, _, rfl⟩
        rw [List.head?_cons]
        intro hcontra
        have hvc : v = compNodeId c := Option.some.inj hcontra
        rcases (mem_succ_iff g _ v).mp hv with ⟨r, hr⟩
        rw [hvc] at hr
        exact hne r hr
  unfold shortest_path
  have htt : (true && true) = true := rfl
  rw [hp, hcn, if_pos htt, hm, hstep]

theorem qrvPerVuln_mem {g : Graph} {pnode : String} {a : NodeAttrs} :
    ∀ (comps : List String) (e : VulnEntry), e ∈ qrvPerVuln g pnode a comps →
    ∃ comp ∈ comps, ∃ p, shortest_path g pnode comp = Except.ok p ∧
      e = { vulnerability := a.vid, component := (attrsOf g comp).name,
            version := (attrsOf g comp).version, path := p } := by
  intro comps
  induction comps with
  | nil =>
    intro e he
    simp only [qrvPerVuln] at he
    cases he
  | cons comp rest ih =>
    intro e he
    cases hsp : shortest_path g pnode comp with
    | ok p =>
      simp only [qrvPerVuln, hsp] at he
      rcases List.mem_cons.mp he with h | h
      · exact ⟨comp, List.mem_cons_self _ _, p, hsp, h⟩
      · obtain ⟨comp', hmem, p', h1, h2⟩ := ih e h
        exact ⟨comp', List.mem_cons_of_mem _ hmem, p', h1, h2⟩
    | error ex =>
      cases ex with
      | noPath =>
        simp only [qrvPerVuln, hsp] at he
        obtain ⟨comp', hmem, p', h1, h2⟩ := ih e he
        exact ⟨comp', List.mem_cons_of_mem _ hmem, p', h1, h2⟩
      | nodeNotFound =>
        simp only [qrvPerVuln, hsp] at he
        cases he
      | networkXError =>
        simp only [qrvPerVuln, hsp] at he
        cases he
      | keyError =>
        simp only [qrvPerVuln, hsp] at he
        cases he

theorem qrvPerVuln_appears {g : Graph} {pnode : String} {a : NodeAttrs} :
    ∀ (comps : List String),
    (∀ comp ∈ comps, shortest_path g pnode comp = Except.error PyExc.noPath ∨
      ∃ p, shortest_path g pnode comp = Except.ok p) →
    ∀ cn ∈ comps, (∃ p, shortest_path g pnode cn = Except.ok p) →
    ∃ e ∈ qrvPerVuln g pnode a comps, e.vulnerability = a.vid := by
  intro comps
  induction comps with
  | nil =>
    intro _ cn hcn _
    cases hcn
  | cons comp rest ih =>
    intro hok cn hcn hsp
    rcases hok comp (List.mem_cons_self _ _) with h | h
    · simp only [qrvPerVuln, h]
      rcases List.mem_cons.mp hcn with heq | hcn2

      · exfalso
        obtain ⟨p, hp⟩ := hsp
        rw [heq, h] at hp
        cases hp
      · exact ih (fun c0 hc0 => hok c0 (List.mem_cons_of_mem _ hc0)) cn hcn2 hsp
    · obtain ⟨p, hp⟩ := h
      simp only [qrvPerVuln, hp]
      exact ⟨_, List.mem_cons_self _ _, rfl⟩

theorem qrvNodes_mem {g : Graph} {pnode : String} :
    ∀ (ns : List (String × NodeAttrs)) (e : VulnEntry), e ∈ qrvNodes g pnode ns →
    ∃ n a, (n, a) ∈ ns ∧ a.typ = some "vulnerability" ∧
      e ∈ qrvPerVuln g pnode a (predecessors g n) := by
  intro ns
  induction ns with
  | nil =>
    intro e he
    simp only [qrvNodes] at he
    cases he
  | cons q rest ih =>
    intro e he
    obtain ⟨n, a⟩ := q
    simp only [qrvNodes] at he
    rcases List.mem_append.mp he with h | h
    · by_cases ht : a.typ = some "vulnerability"
      · rw [if_pos ht] at h
        exact ⟨n, a, List.mem_cons_self _ _, ht, h⟩
      · rw [if_neg ht] at h
        cases h
    · obtain ⟨n', a', hm, ht, he'⟩ := ih e h
      exact ⟨n', a', List.mem_cons_of_mem _ hm, ht, he'⟩

theorem qrvNodes_appears {g : Graph} {pnode : String} {P : VulnEntry → Prop} :
    ∀ (ns : List (String × NodeAttrs)) (n : String) (a : NodeAttrs),
    (n, a) ∈ ns → a.typ = some "vulnerability" →
    (∃ e ∈ qrvPerVuln g pnode a (predecessors g n), P e) →
    ∃ e ∈ qrvNodes g pnode ns, P e := by
  intro ns
  induction ns with
  | nil =>
    intro n a h _ _
    cases h
  | cons q rest ih =>
    intro n a hmem ht hex
    obtain ⟨n0, a0⟩ := q
    simp only [qrvNodes]
    rcases List.mem_cons.mp hmem with h | h
    · injection h with h1 h2
      obtain ⟨e, he, hP⟩ := hex
      refine ⟨e, List.mem_append.mpr (Or.inl ?left), hP⟩
      rw [← h1, ← h2, if_pos ht]
      exact he
    · obtain ⟨e, he, hP⟩ := ih n a h ht hex
      exact ⟨e, List.mem_append.mpr (Or.inr he), hP⟩

/-- Every entry `query_reachable_vulnerabilities` produces on an
invariant-respecting graph reports one of the demo components, carries
the CVE id of an existing vulnerability node, and its path is the direct
two-node path from the project node to the component. -/
theorem qrv_entry_shape {g : Graph} (hg : GInv g) (pid : Int) (vc : String) :
    ∀ e ∈ query_reachable_vulnerabilities g pid vc,
    ∃ (c : DemoComponent) (vid : String),
      c ∈ demoComponents ∧
      e.vulnerability = some vid ∧
      e.path = [projectNodeId pid, compNodeId c] ∧
      (projectNodeId pid, compNodeId c, "DEPENDS_ON") ∈ g.edges ∧
      (compNodeId c, vulnNodeId vid, "AFFECTED_BY") ∈ g.edges := by
  intro e he
  obtain ⟨n, a, hna, htyp, hpv⟩ := qrvNodes_mem g.nodes e he
  rcases hg.1 _ hna with hcase | hcase | hcase
  · obtain ⟨pid', url, h1, h2⟩ := hcase
    have h2n : a = projAttrs url := h2
    rw [h2n] at htyp
    exact absurd (Option.some.inj htyp) (by decide)
  · obtain ⟨c, hc, h1, h2⟩ := hcase
    have h2n : a = compAttrs c := h2
    rw [h2n] at htyp
    exact absurd (Option.some.inj htyp) (by decide)
  · obtain ⟨vid, c0, hc0, hvid0, h1, h2⟩ := hcase
    have hn : n = vulnNodeId vid := h1
    have ha2 : a = vulnAttrs vid := h2
    obtain ⟨comp, hcomp, p, hsp, hee⟩ := qrvPerVuln_mem _ e hpv
    rcases (mem_pred_iff g comp n).mp hcomp with ⟨r, hrmem⟩
    rcases hg.2.1 _ hrmem with hec | hec
    · obtain ⟨pid', c', hc', he1, he2, he3⟩ := hec
      have he2n : n = compNodeId c' := he2
      exact absurd (hn.symm.trans he2n) (vuln_ne_comp vid c' hc')
    · obtain ⟨c', vid', hc', hvid', he1, he2, he3⟩ := hec
      have he1n : comp = compNodeId c' := he1
      have he2n : n = vulnNodeId vid' := he2
      have he3n : r = "AFFECTED_BY" := he3
      by_cases hdep : ∃ rr, (projectNodeId pid, compNodeId c', rr) ∈ g.edges
      · obtain ⟨rr, hrr⟩ := hdep
        have hrr2 : (projectNodeId pid, compNodeId c', "DEPENDS_ON") ∈ g.edges := by
          rcases hg.2.1 _ hrr with hx | hx
          · obtain ⟨pid2, c2, hc2, hx1, hx2, hx3⟩ := hx
            have hx3n : rr = "DEPENDS_ON" := hx3
            rw [hx3n] at hrr
            exact hrr
          · obtain ⟨c2, vid2, hc2, hvid2, hx1, hx2, hx3⟩ := hx
            have hx1n : projectNodeId pid = compNodeId c2 := hx1
            exact absurd hx1n (proj_ne_comp pid c2 hc2)
        have hspd := sp_direct hg hc' hrr2
        rw [he1n] at hsp
        have hpeq : p = [projectNodeId pid, compNodeId c'] := by
          have hx := hsp.symm.trans hspd
          injection hx
        refine ⟨c', vid, hc', ?vf, ?pf, hrr2, ?af⟩
        case vf =>
          rw [hee, ha2]
          rfl
        case pf =>
          rw [hee]
          exact hpeq
        case af =>
          rw [he1n, hn, he3n] at hrmem
          exact hrmem
      · exfalso
        have hcn : hasNodeB g (compNodeId c') = true := by
          have hh := (hg.2.2.1 _ hrmem).1
          have hh2 : hasNodeB g comp = true := hh
          rw [he1n] at hh2
          exact hh2
        have hpn : hasNodeB g (projectNodeId pid) = true := by
          by_contra hf
          have hff : hasNodeB g (projectNodeId pid) = false := by
            cases hb2 : hasNodeB g (projectNodeId pid)
            · rfl
            · exact absurd hb2 hf
          rw [he1n] at hsp
          unfold shortest_path at hsp
          rw [hff] at hsp
          simp at hsp
        have hno := sp_none hg hc' hpn hcn (fun rr hrr => hdep ⟨rr, hrr⟩)
        rw [he1n] at hsp
        have hoe := hno.symm.trans hsp
        cases hoe

theorem two_le_of_head_last {α : Type} (q : List α) (x y : α)
    (hh : q.head? = some x) (hl : q.getLast? = some y) (hne : x ≠ y) :
    2 ≤ q.length := by
  cases q with
  | nil => cases hh
  | cons a t =>
    cases t with
    | nil =>
      exfalso
      rw [List.head?_cons] at hh
      have hx : a = x := Option.some.inj hh
      have hy : a = y := Option.some.inj hl
      exact hne (hx ▸ hy)
    | cons b t2 =>
      simp [List.length_cons]

/-- C1: on every reachable graph state, a vulnerability id appears in
`query_reachable_vulnerabilities(project_id, ·)` exactly when some
component node carries both a `DEPENDS_ON` edge from the project node
and an `AFFECTED_BY` edge to that vulnerability's node; and when no such
pair of edges exists (no dependencies, or no affected vulnerabilities)
the call returns the empty list — never an exception, because
`NetworkXNoPath`/`NodeNotFound` are caught inside the loop. -/
theorem claim_C1 (g : Graph) (project_id : Int) (vulnerable_component : String)
    (vid : String) (hb : Built g) :
    ((∃ e ∈ query_reachable_vulnerabilities g project_id vulnerable_component,
        e.vulnerability = some vid) ↔
      ∃ cn, (projectNodeId project_id, cn, "DEPENDS_ON") ∈ g.edges ∧
        (cn, vulnNodeId vid, "AFFECTED_BY") ∈ g.edges) ∧
    ((¬ ∃ cn vid2, (projectNodeId project_id, cn, "DEPENDS_ON") ∈ g.edges ∧
        (cn, vulnNodeId vid2, "AFFECTED_BY") ∈ g.edges) →
      query_reachable_vulnerabilities g project_id vulnerable_component = []) := by
  have hg := ginv_of_built hb
  constructor
  · constructor
    · rintro ⟨e, he, hv⟩
      obtain ⟨c, vid', hc, hvf, hpath, hdep, haff⟩ :=
        qrv_entry_shape hg project_id vulnerable_component e he
      have hvv : vid' = vid := Option.some.inj (hvf.symm.trans hv)
      exact ⟨compNodeId c, hdep, hvv ▸ haff⟩
    · rintro ⟨cn, hdep, haff⟩
      have hcshape : ∃ c, c ∈ demoComponents ∧ cn = compNodeId c := by
        rcases hg.2.1 _ hdep with hx | hx
        · obtain ⟨pid2, c, hc, hx1, hx2, hx3⟩ := hx
          have hx2n : cn = compNodeId c := hx2
          exact ⟨c, hc, hx2n⟩
        · obtain ⟨c2, vid2, hc2, hvid2, hx1, hx2, hx3⟩ := hx
          have hx1n : projectNodeId project_id = compNodeId c2 := hx1
          exact absurd hx1n (proj_ne_comp project_id c2 hc2)
      obtain ⟨c, hc, hcn⟩ := hcshape
      have hvn : hasNodeB g (vulnNodeId vid) = true := (hg.2.2.1 _ haff).2
      obtain ⟨a, ha⟩ := Option.isSome_iff_exists.mp hvn
      have hmemn : (vulnNodeId vid, a) ∈ g.nodes := mem_of_lookupA _ _ _ ha
      have hashape : a = vulnAttrs vid := by
        rcases hg.1 _ hmemn with hy | hy | hy
        · obtain ⟨pid', url, hy1, hy2⟩ := hy
          have hy1n : vulnNodeId vid = projectNodeId pid' := hy1
          exact absurd hy1n (vuln_ne_proj vid pid')
        · obtain ⟨c', hc', hy1, hy2⟩ := hy
          have hy1n : vulnNodeId vid = compNodeId c' := hy1
          exact absurd hy1n (vuln_ne_comp vid c' hc')
        · obtain ⟨vid0, c0, hc0, hvid0, hy1, hy2⟩ := hy
          have hy1n : vulnNodeId vid = vulnNodeId vid0 := hy1
          have hy2n : a = vulnAttrs vid0 := hy2
          rw [hy2n, vulnNodeId_inj hy1n.symm]
      have htyp : a.typ = some "vulnerability" := by
        rw [hashape]
        rfl
      have hav : a.vid = some vid := by
        rw [hashape]
        rfl
      have hok : ∀ comp ∈ predecessors g (vulnNodeId vid),
          shortest_path g (projectNodeId project_id) comp = Except.error PyExc.noPath ∨
          ∃ p, shortest_path g (projectNodeId project_id) comp = Except.ok p := by
        intro comp hcomp
        rcases (mem_pred_iff g comp _).mp hcomp with ⟨r, hrmem⟩
        have hcomp_shape : ∃ c1, c1 ∈ demoComponents ∧ comp = compNodeId c1 := by
          rcases hg.2.1 _ hrmem with hx | hx
          · obtain ⟨pid2, c2, hc2, hx1, hx2, hx3⟩ := hx
            have hx2n : vulnNodeId vid = compNodeId c2 := hx2
            exact absurd hx2n (vuln_ne_comp vid c2 hc2)
          · obtain ⟨c2, vid2, hc2, hvid2, hx1, hx2, hx3⟩ := hx
            have hx1n : comp = compNodeId c2 := hx1
            exact ⟨c2, hc2, hx1n⟩
        obtain ⟨c1, hc1, hcomp1⟩ := hcomp_shape
        by_cases hd : ∃ rr, (projectNodeId project_id, compNodeId c1, rr) ∈ g.edges
        · obtain ⟨rr, hrr⟩ := hd
          right
          rw [hcomp1]
          exact ⟨_, sp_direct hg hc1 hrr⟩
        · left
          rw [hcomp1]
          have hcn1 : hasNodeB g (compNodeId c1) = true := by
            have := (hg.2.2.1 _ hrmem).1
            rw [hcomp1] at this
            exact this
          exact sp_none hg hc1 (hg.2.2.1 _ hdep).1 hcn1 (fun rr hrr => hd ⟨rr, hrr⟩)
      have hcnpred : cn ∈ predecessors g (vulnNodeId vid) :=
        (mem_pred_iff g cn _).mpr ⟨"AFFECTED_BY", haff⟩
      have hspcn : ∃ p, shortest_path g (projectNodeId project_id) cn = Except.ok p := by
        rw [hcn]
        rw [hcn] at hdep
        exact ⟨_, sp_direct hg hc hdep⟩
      apply qrvNodes_appears g.nodes (vulnNodeId vid) a hmemn htyp
      obtain ⟨e, he, hev⟩ :=
        qrvPerVuln_appears (predecessors g (vulnNodeId vid)) hok cn hcnpred hspcn
      exact ⟨e, he, by rw [hev, hav]⟩
  · intro hnone
    apply List.eq_nil_iff_forall_not_mem.mpr
    intro e he
    obtain ⟨c, vid', hc, hvf, hpath, hdep, haff⟩ :=
      qrv_entry_shape hg project_id vulnerable_component e he
    exact hnone ⟨compNodeId c, vid', hdep, haff⟩

theorem claim_C1_witness :
    Built (generate_sbom emptyGraph 1 "http://r") ∧
    (((∃ e ∈ query_reachable_vulnerabilities (generate_sbom emptyGraph 1 "http://r") 1 "x",
        e.vulnerability = some "CVE-2023-1234") ↔
      ∃ cn, (projectNodeId 1, cn, "DEPENDS_ON")
          ∈ (generate_sbom emptyGraph 1 "http://r").edges ∧
        (cn, vulnNodeId "CVE-2023-1234", "AFFECTED_BY")
          ∈ (generate_sbom emptyGraph 1 "http://r").edges) ∧
    ((¬ ∃ cn vid2, (projectNodeId 1, cn, "DEPENDS_ON")
          ∈ (generate_sbom emptyGraph 1 "http://r").edges ∧
        (cn, vulnNodeId vid2, "AFFECTED_BY")
          ∈ (generate_sbom emptyGraph 1 "http://r").edges) →
      query_reachable_vulnerabilities (generate_sbom emptyGraph 1 "http://r") 1 "x" = [])) :=
  ⟨Built.step emptyGraph 1 "http://r" Built.empty,
   claim_C1 (generate_sbom emptyGraph 1 "http://r") 1 "x" "CVE-2023-1234"
     (Built.step emptyGraph 1 "http://r" Built.empty)⟩

/-- C2 as literally stated is false: the code computes
`nx.shortest_path(graph, project, comp)` — the path ends at the affected
**component**, not at the reported vulnerability node.  Concretely, the
first entry for project 1 reports `CVE-2023-1234` with path
`[project_1, requests_2.28.1]`, which does not end at
`vuln_CVE-2023-1234`. -/
theorem claim_C2_counterexample :
    (query_reachable_vulnerabilities (generate_sbom emptyGraph 1 "u") 1 "x").head?
      = some { vulnerability := some "CVE-2023-1234", component := some "requests",
               version := some "2.28.1", path := ["project_1", "requests_2.28.1"] } ∧
    (["project_1", "requests_2.28.1"] : List String).getLast?
      ≠ some (vulnNodeId "CVE-2023-1234") := by
  constructor
  · decide
  · decide

/-- C2, amended: every returned `path` is an ordered node sequence that
starts at the project node, uses only edges of the graph, and is of
minimal length among such walks to its endpoint — but it ends at the
affected component node (never the reported vulnerability's node); on
the graphs this code builds the shortest path is unique (the tie-break
never arises). -/
theorem claim_C2 (g : Graph) (project_id : Int) (vulnerable_component : String)
    (hb : Built g) :
    ∀ e ∈ query_reachable_vulnerabilities g project_id vulnerable_component,
    ∃ cn vid,
      e.path.head? = some (projectNodeId project_id) ∧
      e.path.getLast? = some cn ∧
      e.vulnerability = some vid ∧
      cn ≠ vulnNodeId vid ∧
      chainOk g e.path ∧
      (∀ q : List String, chainOk g q → q.head? = some (projectNodeId project_id) →
        q.getLast? = some cn → e.path.length ≤ q.length) := by
  intro e he
  have hg := ginv_of_built hb
  obtain ⟨c, vid, hc, hvf, hpath, hdep, haff⟩ :=
    qrv_entry_shape hg project_id vulnerable_component e he
  refine ⟨compNodeId c, vid, ?hd, ?last, hvf, ?necn, ?chain, ?minimal⟩
  case hd =>
    rw [hpath]
    rfl
  case last =>
    rw [hpath]
    rfl
  case necn =>
    exact (vuln_ne_comp vid c hc).symm
  case chain =>
    rw [hpath]
    exact ⟨⟨"DEPENDS_ON", hdep⟩, trivial⟩
  case minimal =>
    intro q hcq hqh hql
    rw [hpath]
    exact two_le_of_head_last q _ _ hqh hql (proj_ne_comp project_id c hc)

theorem claim_C2_witness :
    Built (generate_sbom emptyGraph 2 "http://s") ∧
    (∀ e ∈ query_reachable_vulnerabilities (generate_sbom emptyGraph 2 "http://s") 2 "y",
    ∃ cn vid,
      e.path.head? = some (projectNodeId 2) ∧
      e.path.getLast? = some cn ∧
      e.vulnerability = some vid ∧
      cn ≠ vulnNodeId vid ∧
      chainOk (generate_sbom emptyGraph 2 "http://s") e.path ∧
      (∀ q : List String, chainOk (generate_sbom emptyGraph 2 "http://s") q →
        q.head? = some (projectNodeId 2) →
        q.getLast? = some cn → e.path.length ≤ q.length)) :=
  ⟨Built.step emptyGraph 2 "http://s" Built.empty,
   claim_C2 (generate_sbom emptyGraph 2 "http://s") 2 "y"
     (Built.step emptyGraph 2 "http://s" Built.empty)⟩

end CompOps
